import Mathlib

/-!
Verification development for the PolicyScraper document pipeline
(`parser/pdf_parser.py`, `extractor/regex_extract.py`, `generate_report.py`,
`prepare_dataset.py`).

Strings are modelled as lists of characters (`Str`).  Python string
primitives used by the code (`str.strip`, `str.splitlines`) and the
relevant `re` patterns are embedded as executable Lean functions; regex
matching is embedded with the engine's leftmost, greedy, backtracking
semantics specialised to each concrete pattern.  `\w` and the letter
classes are modelled over ASCII, matching the ASCII inputs the patterns
are built from.
-/

namespace PolicyScraper

/-- Strings as lists of characters. -/
abbrev Str := List Char

/-- Python whitespace (the set stripped by `str.strip()` and matched by `\s`):
tab, LF, VT, FF, CR, FS..US, space, NEL, NBSP and the Unicode space
separators. -/
def pyIsSpace (c : Char) : Bool :=
  let n := c.toNat
  (9 ≤ n && n ≤ 13) || (28 ≤ n && n ≤ 31) || n = 32 || n = 0x85 || n = 0xa0 ||
    n = 0x1680 || (0x2000 ≤ n && n ≤ 0x200a) || n = 0x2028 || n = 0x2029 ||
    n = 0x202f || n = 0x205f || n = 0x3000

/-- Python `str.strip()`: remove leading and trailing whitespace. -/
def pyStrip (s : Str) : Str :=
  (s.dropWhile pyIsSpace).rdropWhile pyIsSpace

/-- Line boundaries recognised by Python `str.splitlines()`:
LF, VT, FF, CR, FS, GS, RS, NEL, LS, PS. -/
def isLineBoundary (c : Char) : Bool :=
  let n := c.toNat
  n = 10 || n = 11 || n = 12 || n = 13 || n = 28 || n = 29 || n = 30 ||
    n = 0x85 || n = 0x2028 || n = 0x2029

/-- Prepend a character to the first line of a line list (used to build
`pySplitlines` structurally). -/
def consHead (c : Char) : List Str → List Str
  | [] => [[c]]
  | l :: ls => (c :: l) :: ls

/-- Python `str.splitlines()`: split at line boundaries, treating `\r\n` as a
single boundary; a trailing boundary does not produce an extra empty line. -/
def pySplitlines : Str → List Str
  | [] => []
  | '\r' :: '\n' :: rest => [] :: pySplitlines rest
  | c :: rest =>
    if isLineBoundary c then [] :: pySplitlines rest
    else consHead c (pySplitlines rest)

/-- `"\n".join(...)` on a list of lines. -/
def joinN : List Str → Str
  | [] => []
  | [l] => l
  | l :: ls => l ++ '\n' :: joinN ls

/-- ASCII uppercase letter, the regex class `[A-Z]`. -/
def isUpperAZ (c : Char) : Bool := 'A' ≤ c && c ≤ 'Z'

/-- ASCII digit, the regex class `[0-9]`, by code point. -/
def isDigit09 (c : Char) : Bool := 48 ≤ c.toNat && c.toNat ≤ 57

/-- The regex class `[A-Z\s\-']` from `heading_pattern`. -/
def inCapsClass (c : Char) : Bool :=
  isUpperAZ c || pyIsSpace c || c = '-' || c = Char.ofNat 39

/-- First alternative of `heading_pattern`, `[A-Z][A-Z\s\-']{3,}` as a prefix
match: an uppercase letter followed by at least three class characters. -/
def capsBranch : Str → Bool
  | c0 :: c1 :: c2 :: c3 :: _ =>
    isUpperAZ c0 && inCapsClass c1 && inCapsClass c2 && inCapsClass c3
  | _ => false

/-- One backtracking split of the second alternative `[0-9]+.\s+`:
`k` digits, then one character matched by the (unescaped) dot, i.e. any
character except a newline, then at least one whitespace character. -/
def numBranchAt (s : Str) (k : Nat) : Bool :=
  match s.drop k with
  | c :: w :: _ => c ≠ '\n' && pyIsSpace w
  | _ => false

/-- Second alternative of `heading_pattern`, `[0-9]+.\s+` as a prefix match,
with the `[0-9]+` quantifier backtracking over all nonzero digit counts. -/
def numBranch (s : Str) : Bool :=
  (List.range' 1 (s.takeWhile isDigit09).length).any (fun k => numBranchAt s k)

/-- `heading_pattern.match(line)` from `split_into_sections`:
`^([A-Z][A-Z\s\-']{3,}|[0-9]+.\s+)`. -/
def isHeading (s : Str) : Bool := capsBranch s || numBranch s

/-- One output section of `split_into_sections`. -/
structure Section where
  title : Str
  text : Str
deriving DecidableEq, Repr

/-- Flushing the current buffer: the source appends
`{"title": current_title.strip(), "text": "\n".join(current_buf).strip()}`
when `current_buf` is a non-empty list. -/
def flushSec (title : Str) (buf : List Str) : List Section :=
  if buf.isEmpty then [] else [⟨pyStrip title, pyStrip (joinN buf)⟩]

/-- The main loop of `split_into_sections` over the remaining lines, carrying
`current_title` and `current_buf`. -/
def splitLoop : List Str → Str → List Str → List Section
  | [], title, buf => flushSec title buf
  | l :: ls, title, buf =>
    if isHeading (pyStrip l) then flushSec title buf ++ splitLoop ls (pyStrip l) []
    else splitLoop ls title (buf ++ [l])

/-- The initial `current_title = "start"`. -/
def startTitle : Str := ['s', 't', 'a', 'r', 't']

/-- `split_into_sections` from `parser/pdf_parser.py`. -/
def split_into_sections (text : Str) : List Section :=
  splitLoop (pySplitlines text) startTitle []

/-- Ghost variant of `splitLoop` that records each emitted section's title and
raw buffered lines instead of the rendered section. -/
def bufLoop : List Str → Str → List Str → List (Str × List Str)
  | [], title, buf => if buf.isEmpty then [] else [(title, buf)]
  | l :: ls, title, buf =>
    if isHeading (pyStrip l) then
      (if buf.isEmpty then [] else [(title, buf)]) ++ bufLoop ls (pyStrip l) []
    else bufLoop ls title (buf ++ [l])

/-- Titles with raw line buffers, as partitioned by `split_into_sections`. -/
def bufferPartition (text : Str) : List (Str × List Str) :=
  bufLoop (pySplitlines text) startTitle []

/-- Rendering a title/buffer pair the way `split_into_sections` emits it. -/
def renderSec (p : Str × List Str) : Section :=
  ⟨pyStrip p.1, pyStrip (joinN p.2)⟩

/-- The character class of the ALL-CAPS heading alternative as the
specification words it: uppercase letters, spaces, hyphens, apostrophes
(space only, not arbitrary whitespace). -/
def specCapsClass (c : Char) : Bool :=
  isUpperAZ c || c = ' ' || c = '-' || c = Char.ofNat 39

/-- The ALL-CAPS heading alternative as the specification words it:
an uppercase letter followed by three or more class characters. -/
def specCapsBranch : Str → Bool
  | c0 :: c1 :: c2 :: c3 :: _ =>
    isUpperAZ c0 && specCapsClass c1 && specCapsClass c2 && specCapsClass c3
  | _ => false

/-- One split of the numbered-heading alternative as the specification words
it: `k` digits, a literal period character, then whitespace. -/
def specNumAt (s : Str) (k : Nat) : Bool :=
  match s.drop k with
  | c :: w :: _ => c = '.' && pyIsSpace w
  | _ => false

/-- The numbered-heading alternative as the specification words it: one or
more digits, then a literal period, then whitespace. -/
def specNumBranch (s : Str) : Bool :=
  (List.range' 1 (s.takeWhile isDigit09).length).any (fun k => specNumAt s k)

/-- The heading predicate exactly as the specification (and the code's own
comments) describe it, with a literal period in the numbered alternative. -/
def specHeading (s : Str) : Bool := specCapsBranch s || specNumBranch s

/-! ### Basic lemmas about `pyStrip` -/

theorem exists_rdropWhile_append (p : Char → Bool) (l : Str) :
    ∃ u, l.rdropWhile p ++ u = l := by
  refine ⟨(l.reverse.takeWhile p).reverse, ?_⟩
  rw [List.rdropWhile]
  rw [← List.reverse_append, List.takeWhile_append_dropWhile, List.reverse_reverse]

theorem dropWhile_of_self_of_append (p : Char → Bool) (l u m : Str)
    (hm : m.dropWhile p = m) (hu : l ++ u = m) : l.dropWhile p = l := by
  cases l with
  | nil => rfl
  | cons c t =>
    have hc : p c = false := by
      subst hu
      by_contra hc
      rw [Bool.not_eq_false] at hc
      rw [List.cons_append, List.dropWhile_cons_of_pos hc] at hm
      have h1 := congrArg List.length hm
      have h2 : ((t ++ u).dropWhile p).length ≤ (t ++ u).length :=
        (List.dropWhile_sublist p).length_le
      simp only [List.length_cons] at h1
      omega
    rw [List.dropWhile_cons_of_neg (by simp [hc])]

theorem pyStrip_idem (s : Str) : pyStrip (pyStrip s) = pyStrip s := by
  unfold pyStrip
  have hmm : (s.dropWhile pyIsSpace).dropWhile pyIsSpace = s.dropWhile pyIsSpace :=
    List.dropWhile_idempotent _ _
  obtain ⟨u, hu⟩ := exists_rdropWhile_append pyIsSpace (s.dropWhile pyIsSpace)
  rw [dropWhile_of_self_of_append pyIsSpace _ u _ hmm hu]
  exact List.rdropWhile_idempotent _ _

theorem pyStrip_startTitle : pyStrip startTitle = startTitle := by decide

/-! ### The splitter loop versus its ghost buffer partition -/

theorem splitLoop_eq_render (ls : List Str) :
    ∀ t b, splitLoop ls t b = (bufLoop ls t b).map renderSec := by
  induction ls with
  | nil =>
    intro t b
    by_cases hb : b.isEmpty <;> simp [splitLoop, bufLoop, flushSec, renderSec, hb]
  | cons l ls ih =>
    intro t b
    by_cases hh : isHeading (pyStrip l) <;>
      by_cases hb : b.isEmpty <;>
        simp [splitLoop, bufLoop, flushSec, renderSec, hh, hb, ih]

theorem bufLoop_cons_pos {l : Str} (ls : List Str) (t : Str) (b : List Str)
    (hh : isHeading (pyStrip l) = true) :
    bufLoop (l :: ls) t b =
      (if b.isEmpty then [] else [(t, b)]) ++ bufLoop ls (pyStrip l) [] := by
  simp [bufLoop, hh]

theorem bufLoop_cons_neg {l : Str} (ls : List Str) (t : Str) (b : List Str)
    (hh : isHeading (pyStrip l) = false) :
    bufLoop (l :: ls) t b = bufLoop ls t (b ++ [l]) := by
  simp [bufLoop, hh]

theorem bufLoop_join (ls : List Str) :
    ∀ t b, ((bufLoop ls t b).map Prod.snd).flatten =
      b ++ ls.filter (fun l => !isHeading (pyStrip l)) := by
  induction ls with
  | nil =>
    intro t b
    by_cases hb : b.isEmpty
    · rw [List.isEmpty_iff] at hb
      simp [bufLoop, hb]
    · simp [bufLoop, hb]
  | cons l ls ih =>
    intro t b
    by_cases hh : isHeading (pyStrip l)
    · rw [bufLoop_cons_pos ls t b hh]
      by_cases hb : b.isEmpty
      · rw [List.isEmpty_iff] at hb
        simp [hb, ih, List.filter_cons, hh]
      · simp [hb, ih, List.filter_cons, hh]
    · rw [bufLoop_cons_neg ls t b (by simpa using hh)]
      rw [ih]
      simp [List.filter_cons, hh]

theorem bufLoop_snd_ne_nil (ls : List Str) :
    ∀ t b p, p ∈ bufLoop ls t b → p.2 ≠ [] := by
  induction ls with
  | nil =>
    intro t b p hp
    by_cases hb : b.isEmpty
    · simp [bufLoop, hb] at hp
    · simp [bufLoop, hb] at hp
      subst hp
      simpa [List.isEmpty_iff] using hb
  | cons l ls ih =>
    intro t b p hp
    by_cases hh : isHeading (pyStrip l)
    · rw [bufLoop_cons_pos ls t b hh] at hp
      rcases List.mem_append.mp hp with hp | hp
      · by_cases hb : b.isEmpty
        · simp [hb] at hp
        · simp [hb] at hp
          subst hp
          simpa [List.isEmpty_iff] using hb
      · exact ih _ _ _ hp
    · rw [bufLoop_cons_neg ls t b (by simpa using hh)] at hp
      exact ih _ _ _ hp

theorem bufLoop_title_prov (ls : List Str) :
    ∀ t b p, p ∈ bufLoop ls t b →
      p.1 = t ∨ ∃ l ∈ ls, isHeading (pyStrip l) = true ∧ p.1 = pyStrip l := by
  induction ls with
  | nil =>
    intro t b p hp
    by_cases hb : b.isEmpty
    · simp [bufLoop, hb] at hp
    · simp [bufLoop, hb] at hp
      subst hp
      exact Or.inl rfl
  | cons l ls ih =>
    intro t b p hp
    by_cases hh : isHeading (pyStrip l)
    · rw [bufLoop_cons_pos ls t b hh] at hp
      rcases List.mem_append.mp hp with hp | hp
      · by_cases hb : b.isEmpty
        · simp [hb] at hp
        · simp [hb] at hp
          subst hp
          exact Or.inl rfl
      · rcases ih _ _ _ hp with h | ⟨l2, hl2, h1, h2⟩
        · exact Or.inr ⟨l, List.mem_cons_self _ _, hh, h⟩
        · exact Or.inr ⟨l2, List.mem_cons_of_mem _ hl2, h1, h2⟩
    · rw [bufLoop_cons_neg ls t b (by simpa using hh)] at hp
      rcases ih _ _ _ hp with h | ⟨l2, hl2, h1, h2⟩
      · exact Or.inl h
      · exact Or.inr ⟨l2, List.mem_cons_of_mem _ hl2, h1, h2⟩

/-! ### Claims C1 and C2: heading titles and the heading pattern -/

/-- Claim C1, counterexample: on the numbered heading line "2. Scope" the
code records the entire trimmed line as the section title, not the
numeric-prefix token "2." that the claim asserts. -/
theorem C1_numbered_title_cex :
    (split_into_sections (String.data "2. Scope\nbody")).map Section.title =
      [String.data "2. Scope"] ∧
    String.data "2. Scope" ≠ String.data "2." := by
  constructor
  · rfl
  · decide

/-- Claim C1, amended: every section title produced by `split_into_sections`
is either the initial sentinel "start" or the entire trimmed heading line
(never a capture-group fragment of it). -/
theorem C1_title_is_whole_trimmed_line (text : Str) (sec : Section)
    (hsec : sec ∈ split_into_sections text) :
    sec.title = startTitle ∨
      ∃ l ∈ pySplitlines text, isHeading (pyStrip l) = true ∧ sec.title = pyStrip l := by
  unfold split_into_sections at hsec
  rw [splitLoop_eq_render] at hsec
  rcases List.mem_map.mp hsec with ⟨p, hp, hren⟩
  rcases bufLoop_title_prov _ _ _ _ hp with h | ⟨l, hl, h1, h2⟩
  · left
    rw [← hren, renderSec, h]
    exact pyStrip_startTitle
  · right
    refine ⟨l, hl, h1, ?_⟩
    rw [← hren, renderSec, h2]
    exact pyStrip_idem l

/-- Claim C1, witness: the amended statement applied to the concrete document
"2. Scope\nbody" and its unique section. -/
theorem C1_title_is_whole_trimmed_line_witness :
    (⟨String.data "2. Scope", String.data "body"⟩ : Section).title = startTitle ∨
      ∃ l ∈ pySplitlines (String.data "2. Scope\nbody"),
        isHeading (pyStrip l) = true ∧
          (⟨String.data "2. Scope", String.data "body"⟩ : Section).title = pyStrip l :=
  C1_title_is_whole_trimmed_line (String.data "2. Scope\nbody") _ (by decide)

/-- Claim C2: the line "1x y" is classified as a heading by the code's
`heading_pattern` (the unescaped dot in `[0-9]+.\s+` matches the letter x),
it is not a heading under the two patterns stated by the specification and
the code's own comments, and `split_into_sections` promotes it to a section
title. -/
theorem C2_unescaped_dot_heading :
    isHeading (String.data "1x y") = true ∧
    specHeading (String.data "1x y") = false ∧
    (split_into_sections (String.data "1x y\nbody")).map Section.title =
      [String.data "1x y"] := by
  refine ⟨by decide, by decide, by rfl⟩

/-! ### Claims C3 and C6: emission invariant and body ordering -/

/-- Claim C3, counterexample: in "HEADING\n\nSECOND HEAD\nbody" the blank
line buffered under the first heading is a non-empty buffer, so the code
flushes an empty-body section for "HEADING" in the middle of the document,
not only at the end. -/
theorem C3_empty_body_not_final_cex :
    split_into_sections (String.data "HEADING\n\nSECOND HEAD\nbody") =
      [⟨String.data "HEADING", []⟩,
       ⟨String.data "SECOND HEAD", String.data "body"⟩] := by
  rfl

/-- Claim C3, amended: sections come from the buffer partition in document
order; a section is emitted exactly when the line buffer is non-empty as a
list (even if every buffered line is empty, in which case the body renders
as the empty string), and the buffers enumerate exactly the non-heading
lines in order. -/
theorem C3_emission_invariant (text : Str) :
    split_into_sections text = (bufferPartition text).map renderSec ∧
    (∀ p ∈ bufferPartition text, p.2 ≠ []) ∧
    ((bufferPartition text).map Prod.snd).flatten =
      (pySplitlines text).filter (fun l => !isHeading (pyStrip l)) := by
  refine ⟨splitLoop_eq_render _ _ _, fun p hp => bufLoop_snd_ne_nil _ _ _ _ hp, ?_⟩
  simpa using bufLoop_join (pySplitlines text) startTitle []

/-- Claim C6: section bodies are the stripped newline-joins of the buffer
partition, the buffers taken together list exactly the non-heading lines of
the document in their original relative order, and no line buffered into any
section body is a heading line. -/
theorem C6_body_order_no_headings (text : Str) :
    (split_into_sections text).map Section.text =
      (bufferPartition text).map (fun p => pyStrip (joinN p.2)) ∧
    ((bufferPartition text).map Prod.snd).flatten =
      (pySplitlines text).filter (fun l => !isHeading (pyStrip l)) ∧
    ∀ p ∈ bufferPartition text, ∀ l ∈ p.2, isHeading (pyStrip l) = false := by
  refine ⟨?_, ?_, ?_⟩
  · unfold split_into_sections
    rw [splitLoop_eq_render]
    rw [List.map_map]
    rfl
  · simpa using bufLoop_join (pySplitlines text) startTitle []
  · intro p hp l hl
    have hmem : l ∈ ((bufferPartition text).map Prod.snd).flatten := by
      rw [List.mem_flatten]
      exact ⟨p.2, List.mem_map.mpr ⟨p, hp, rfl⟩, hl⟩
    rw [bufferPartition] at hmem
    rw [bufLoop_join (pySplitlines text) startTitle []] at hmem
    simp only [List.nil_append] at hmem
    have := List.of_mem_filter hmem
    simpa using this

/-! ### Claim C5: documents with no headings -/

theorem pySplitlines_ne_nil (s : Str) (hs : s ≠ []) : pySplitlines s ≠ [] := by
  rw [pySplitlines.eq_def]
  split
  · exact absurd rfl hs
  · simp
  · split
    · simp
    · cases h : pySplitlines _ <;> simp [consHead]

theorem joinN_consHead (c : Char) (L : List Str) :
    joinN (consHead c L) = c :: joinN L := by
  match L with
  | [] => rfl
  | [l] => rfl
  | l :: l2 :: ls => simp [consHead, joinN]

/-- The input minus one trailing newline, the residue of joining the split
lines back together when all line boundaries are plain newlines. -/
def rmTrailNL : Str → Str
  | [] => []
  | [c] => if c = '\n' then [] else [c]
  | c :: c2 :: rest => c :: rmTrailNL (c2 :: rest)

theorem rmTrailNL_eq_or_concat (s : Str) :
    rmTrailNL s = s ∨ ∃ u, s = u ++ ['\n'] ∧ rmTrailNL s = u := by
  induction s with
  | nil => exact Or.inl rfl
  | cons c rest ih =>
    match rest, ih with
    | [], _ =>
      by_cases hc : c = '\n'
      · exact Or.inr ⟨[], by simp [hc], by simp [rmTrailNL, hc]⟩
      · exact Or.inl (by simp [rmTrailNL, hc])
    | c2 :: rs, ih =>
      rcases ih with h | ⟨u, hu1, hu2⟩
      · exact Or.inl (by simp [rmTrailNL, h])
      · exact Or.inr ⟨c :: u, by simp [hu1], by simp [rmTrailNL, hu2]⟩

theorem pyStrip_concat_space (u : Str) (c : Char) (hc : pyIsSpace c = true) :
    pyStrip (u ++ [c]) = pyStrip u := by
  unfold pyStrip
  rw [List.dropWhile_append]
  by_cases h : (u.dropWhile pyIsSpace).isEmpty
  · rw [if_pos h]
    rw [List.isEmpty_iff] at h
    rw [h]
    simp [List.dropWhile_cons, hc, List.rdropWhile]
  · rw [if_neg h]
    exact List.rdropWhile_concat_pos _ _ _ hc

theorem pyStrip_rmTrailNL (s : Str) : pyStrip (rmTrailNL s) = pyStrip s := by
  rcases rmTrailNL_eq_or_concat s with h | ⟨u, hu1, hu2⟩
  · rw [h]
  · rw [hu2, hu1, pyStrip_concat_space u '\n' (by decide)]

theorem pySplitlines_cons (c : Char) (rest : Str)
    (h : ∀ rs, c = '\r' → rest = '\n' :: rs → False) :
    pySplitlines (c :: rest) =
      if isLineBoundary c then [] :: pySplitlines rest
      else consHead c (pySplitlines rest) := by
  rw [pySplitlines.eq_def]
  split
  · rename_i heq
    exact absurd heq (by simp)
  · rename_i rs heq
    rw [List.cons_eq_cons] at heq
    exact absurd trivial (fun _ => h rs heq.1 heq.2)
  · rename_i c2 rest2 hpat heq
    rw [List.cons_eq_cons] at heq
    rw [heq.1, heq.2]

theorem joinN_pySplitlines (s : Str)
    (h : ∀ c ∈ s, isLineBoundary c = true → c = '\n') :
    joinN (pySplitlines s) = rmTrailNL s := by
  induction s using pySplitlines.induct with
  | case1 => rfl
  | case2 rest ih =>
    exact absurd (h '\r' (by simp) (by decide)) (by decide)
  | case3 c rest hpat hb ih =>
    have hcn : c = '\n' := h c (by simp) hb
    subst hcn
    rw [pySplitlines_cons '\n' rest hpat, if_pos hb]
    match rest with
    | [] => rfl
    | r1 :: rs =>
      have ihx := ih (fun x hx hbx => h x (by simp [hx]) hbx)
      cases hx : pySplitlines (r1 :: rs) with
      | nil => exact absurd hx (pySplitlines_ne_nil _ (by simp))
      | cons x L =>
        rw [hx] at ihx
        show joinN ([] :: x :: L) = rmTrailNL ('\n' :: r1 :: rs)
        rw [show joinN ([] :: x :: L) = '\n' :: joinN (x :: L) from rfl]
        rw [show rmTrailNL ('\n' :: r1 :: rs) = '\n' :: rmTrailNL (r1 :: rs) from rfl]
        rw [ihx]
  | case4 c rest hpat hb ih =>
    rw [pySplitlines_cons c rest hpat, if_neg hb]
    rw [joinN_consHead]
    rw [ih (fun x hx hbx => h x (by simp [hx]) hbx)]
    match rest with
    | [] =>
      have hcn : c ≠ '\n' := fun hcc => hb (by rw [hcc]; decide)
      simp [rmTrailNL, hcn]
    | r1 :: rs => rfl

theorem splitLoop_no_heading (ls : List Str)
    (h : ∀ l ∈ ls, isHeading (pyStrip l) = false) :
    ∀ t b, splitLoop ls t b = flushSec t (b ++ ls) := by
  induction ls with
  | nil => intro t b; simp [splitLoop]
  | cons l ls ih =>
    intro t b
    have hl : isHeading (pyStrip l) = false := h l (by simp)
    rw [show splitLoop (l :: ls) t b = splitLoop ls t (b ++ [l]) from by
      simp [splitLoop, hl]]
    rw [ih (fun x hx => h x (by simp [hx])) t (b ++ [l])]
    simp

/-- Claim C5, counterexample: the empty document has zero heading lines but
`split_into_sections` returns zero sections, not one section titled
"start". -/
theorem C5_empty_text_cex :
    split_into_sections (String.data "") = [] ∧
    (split_into_sections (String.data "")).length ≠ 1 := by
  exact ⟨rfl, by decide⟩

/-- Claim C5, amended: a non-empty document with zero heading lines yields
exactly one section titled "start" whose body is the newline-rejoin of its
split lines, stripped; when every line boundary in the document is a plain
newline this body equals the whole input text stripped, as the claim
states. -/
theorem C5_no_heading_single_section (text : Str) (hne : text ≠ [])
    (hnh : ∀ l ∈ pySplitlines text, isHeading (pyStrip l) = false) :
    split_into_sections text =
      [⟨startTitle, pyStrip (joinN (pySplitlines text))⟩] ∧
    ((∀ c ∈ text, isLineBoundary c = true → c = '\n') →
      pyStrip (joinN (pySplitlines text)) = pyStrip text) := by
  constructor
  · unfold split_into_sections
    rw [splitLoop_no_heading _ hnh startTitle []]
    rw [List.nil_append, flushSec,
      if_neg (by simpa [List.isEmpty_iff] using pySplitlines_ne_nil text hne)]
    rw [pyStrip_startTitle]
  · intro hnl
    rw [joinN_pySplitlines text hnl, pyStrip_rmTrailNL]

/-- Claim C5, witness: the amended statement at the concrete two-line
document "hello world\nsecond line". -/
theorem C5_no_heading_single_section_witness :
    split_into_sections (String.data "hello world\nsecond line") =
      [⟨startTitle,
        pyStrip (joinN (pySplitlines (String.data "hello world\nsecond line")))⟩] ∧
    ((∀ c ∈ String.data "hello world\nsecond line",
        isLineBoundary c = true → c = '\n') →
      pyStrip (joinN (pySplitlines (String.data "hello world\nsecond line"))) =
        pyStrip (String.data "hello world\nsecond line")) :=
  C5_no_heading_single_section (String.data "hello world\nsecond line")
    (by decide) (by decide)

/-! ### Claim C4: the per-page OCR decision in `extract_text_from_pdf` -/

/-- One page of a document, modelling the two external text sources:
`page.get_text("text")` (native extraction) and the OCR result
`pytesseract.image_to_string` of the rasterized page. -/
structure Page where
  native : Str
  ocr : Str
deriving DecidableEq, Repr

/-- The per-page OCR trigger from `extract_text_from_pdf`:
`len(text.strip()) < 50`. -/
def pageScanned (p : Page) : Bool := decide ((pyStrip p.native).length < 50)

/-- The text a page contributes to the document: the OCR text when the page
is classified as scanned, the native text otherwise. -/
def pageChoice (p : Page) : Str := if (pyStrip p.native).length < 50 then p.ocr else p.native

/-- The page loop of `extract_text_from_pdf`, carrying the `is_scanned`
accumulator and collecting per-page texts in page order. -/
def extractLoop : List Page → Bool → List Str × Bool
  | [], sc => ([], sc)
  | p :: ps, sc =>
    if (pyStrip p.native).length < 50 then
      let r := extractLoop ps true
      (p.ocr :: r.1, r.2)
    else
      let r := extractLoop ps sc
      (p.native :: r.1, r.2)

/-- `extract_text_from_pdf` from `parser/pdf_parser.py`, over the document's
pages: runs the page loop from `is_scanned = False` and joins the collected
page texts with newlines. -/
def extract_text_from_pdf (doc : List Page) : Str × Bool :=
  let r := extractLoop doc false
  (joinN r.1, r.2)

theorem extractLoop_fst (doc : List Page) :
    ∀ sc, (extractLoop doc sc).1 = doc.map pageChoice := by
  induction doc with
  | nil => intro sc; rfl
  | cons p ps ih =>
    intro sc
    by_cases hp : (pyStrip p.native).length < 50 <;>
      simp [extractLoop, hp, ih, pageChoice]

theorem extractLoop_snd (doc : List Page) :
    ∀ sc, (extractLoop doc sc).2 = (sc || doc.any pageScanned) := by
  induction doc with
  | nil => intro sc; simp [extractLoop]
  | cons p ps ih =>
    intro sc
    by_cases hp : (pyStrip p.native).length < 50 <;>
      simp [extractLoop, hp, ih, pageScanned, List.any_cons]

/-- Claim C4: a page contributes its OCR text (in place of the native text)
if and only if its stripped native text is shorter than 50 characters; the
document text is the newline-join of the per-page choices in page order; the
`was_scanned` flag is true if and only if some page triggered the OCR path;
and concretely a page stripping to 49 characters triggers OCR while one
stripping to exactly 50 does not. -/
theorem C4_ocr_threshold :
    (∀ doc : List Page,
      extract_text_from_pdf doc = (joinN (doc.map pageChoice), doc.any pageScanned)) ∧
    (∀ p : Page, pageScanned p = true ↔ (pyStrip p.native).length < 50) ∧
    (∀ p : Page,
      pageChoice p = (if pageScanned p then p.ocr else p.native)) ∧
    (∀ doc : List Page,
      (extract_text_from_pdf doc).2 = true ↔ ∃ p ∈ doc, (pyStrip p.native).length < 50) ∧
    (pageChoice ⟨List.replicate 49 'a', String.data "ocr text"⟩ = String.data "ocr text" ∧
     pageScanned ⟨List.replicate 49 'a', String.data "ocr text"⟩ = true) ∧
    (pageChoice ⟨List.replicate 50 'a', String.data "ocr text"⟩ = List.replicate 50 'a' ∧
     pageScanned ⟨List.replicate 50 'a', String.data "ocr text"⟩ = false) := by
  refine ⟨?_, ?_, ?_, ?_, ⟨by decide, by decide⟩, ⟨by decide, by decide⟩⟩
  · intro doc
    show (joinN (extractLoop doc false).1, (extractLoop doc false).2) = _
    rw [extractLoop_fst doc false, extractLoop_snd doc false, Bool.false_or]
  · intro p
    simp [pageScanned]
  · intro p
    by_cases hp : (pyStrip p.native).length < 50 <;> simp [pageChoice, pageScanned, hp]
  · intro doc
    unfold extract_text_from_pdf
    rw [extractLoop_snd doc false, Bool.false_or]
    simp [List.any_eq_true, pageScanned]

/-! ### Claim C7: `contains_exclusions_section` -/

/-- Case folding used for `re.I` matching; the patterns are lowercase ASCII,
and `Char.toLower` lowercases exactly ASCII uppercase letters. -/
def lch (c : Char) : Char := c.toLower

/-- The regex word class `\w`, modelled over ASCII: letters, digits,
underscore. -/
def isWordChar (c : Char) : Bool :=
  ('a' ≤ c && c ≤ 'z') || ('A' ≤ c && c ≤ 'Z') || isDigit09 c || c = '_'

/-- Case-insensitive match of `phrase` (given lowercase) at offset `i`. -/
def ciAt (phrase s : Str) (i : Nat) : Bool :=
  decide (((s.drop i).take phrase.length).map lch = phrase)

/-- The `\b` condition on the left of offset `i`: start of string or a
non-word character before. -/
def prevNonWord (s : Str) : Nat → Bool
  | 0 => true
  | j + 1 =>
    match s[j]? with
    | some c => !isWordChar c
    | none => true

/-- The `\b` condition to the right of offset `i`: end of string or a
non-word character at `i`. -/
def nextNonWord (s : Str) (i : Nat) : Bool :=
  match s[i]? with
  | some c => !isWordChar c
  | none => true

/-- A whole-word case-insensitive match of `phrase` at offset `i`. -/
def wholeWordAt (phrase s : Str) (i : Nat) : Bool :=
  ciAt phrase s i && prevNonWord s i && nextNonWord s (i + phrase.length)

/-- The five literal phrases generated by the alternation and optional parts
of `EXCLUSION_HEADINGS`:
`\b(exclusions?|what (?:is )?not covered|we will not pay)\b`. -/
def exclusionPhrases : List Str :=
  [String.data "exclusion", String.data "exclusions",
   String.data "what is not covered", String.data "what not covered",
   String.data "we will not pay"]

/-- `EXCLUSION_HEADINGS.search(s)` as a Boolean: some phrase matches
whole-word, case-insensitively, at some offset. -/
def exclusionSearch (s : Str) : Bool :=
  (List.range (s.length + 1)).any (fun i =>
    exclusionPhrases.any (fun p => wholeWordAt p s i))

/-- `contains_exclusions_section` from `extractor/regex_extract.py`: the
pattern is searched in the title and in the first 2000 characters of the
body (`text[:2000]`). -/
def contains_exclusions_section (title body : Str) : Bool :=
  exclusionSearch title || exclusionSearch (body.take 2000)

/-- A whole-word case-insensitive occurrence, as the specification words it:
the string splits as `u ++ w ++ v` where `w` case-folds to the phrase and
the adjacent characters (last of `u`, first of `v`), when they exist, are
not word characters. -/
def WholeWordOccurs (phrase s : Str) : Prop :=
  ∃ u w v, s = u ++ w ++ v ∧ w.map lch = phrase ∧
    (∀ c, u.getLast? = some c → isWordChar c = false) ∧
    (∀ c, v.head? = some c → isWordChar c = false)

theorem head?_drop_eq (s : Str) : ∀ k : Nat, (s.drop k).head? = s[k]? := by
  induction s with
  | nil => intro k; simp
  | cons c t ih =>
    intro k
    cases k with
    | zero => simp
    | succ j => simp [ih j]

theorem getLast?_take_eq (s : Str) (j : Nat) (h : j < s.length) :
    (s.take (j + 1)).getLast? = s[j]? := by
  rw [List.getLast?_eq_getElem?]
  have hlen : (s.take (j + 1)).length = j + 1 := by
    rw [List.length_take]; omega
  rw [hlen, Nat.add_sub_cancel]
  exact List.getElem?_take_of_lt (Nat.lt_succ_self j)

theorem exclusionPhrases_pos : ∀ p ∈ exclusionPhrases, 0 < p.length := by decide

theorem prevNonWord_append (u rest : Str)
    (hu : ∀ c, u.getLast? = some c → isWordChar c = false) :
    prevNonWord (u ++ rest) u.length = true := by
  cases u with
  | nil => rfl
  | cons a b =>
    show prevNonWord ((a :: b) ++ rest) (b.length + 1) = true
    simp only [prevNonWord]
    have hidx : ((a :: b) ++ rest)[b.length]? = (a :: b).getLast? := by
      rw [List.getElem?_append_left (by simp), List.getLast?_eq_getElem?]
      simp
    rw [hidx]
    cases hlast : (a :: b).getLast? with
    | none => rfl
    | some c => simp [hu c hlast]

theorem nextNonWord_append (uw v : Str)
    (hv : ∀ c, v.head? = some c → isWordChar c = false) :
    nextNonWord (uw ++ v) uw.length = true := by
  simp only [nextNonWord]
  have hidx : (uw ++ v)[uw.length]? = v.head? := by
    rw [List.getElem?_append_right (Nat.le_refl _), List.head?_eq_getElem?]
    congr 1
    omega
  rw [hidx]
  cases hhead : v.head? with
  | none => rfl
  | some c => simp [hv c hhead]

theorem exclusionSearch_iff (s : Str) :
    exclusionSearch s = true ↔ ∃ p ∈ exclusionPhrases, WholeWordOccurs p s := by
  constructor
  · intro h
    simp only [exclusionSearch, List.any_eq_true, List.mem_range] at h
    rcases h with ⟨i, hi, p, hp, hww⟩
    refine ⟨p, hp, ?_⟩
    simp only [wholeWordAt, Bool.and_eq_true] at hww
    rcases hww with ⟨⟨hci, hprev⟩, hnext⟩
    rw [ciAt, decide_eq_true_iff] at hci
    refine ⟨s.take i, (s.drop i).take p.length, (s.drop i).drop p.length, ?_, hci, ?_, ?_⟩
    · rw [List.append_assoc, List.take_append_drop, List.take_append_drop]
    · intro c hc
      cases i with
      | zero => simp at hc
      | succ j =>
        have hj : j < s.length := by omega
        rw [getLast?_take_eq s j hj] at hc
        simp only [prevNonWord, hc, Bool.not_eq_true'] at hprev
        exact hprev
    · intro c hc
      rw [List.drop_drop, head?_drop_eq] at hc
      rw [nextNonWord] at hnext
      rw [hc] at hnext
      simpa using hnext
  · intro ⟨p, hp, u, w, v, hs, hw, hu, hv⟩
    simp only [exclusionSearch, List.any_eq_true, List.mem_range]
    have hwlen : w.length = p.length := by
      rw [← hw, List.length_map]
    refine ⟨u.length, ?_, p, hp, ?_⟩
    · have : s.length = u.length + (w.length + v.length) := by
        rw [hs]; simp only [List.length_append, Nat.add_assoc]
      omega
    · simp only [wholeWordAt, Bool.and_eq_true]
      refine ⟨⟨?_, ?_⟩, ?_⟩
      · rw [ciAt, decide_eq_true_iff]
        rw [hs, List.append_assoc, List.drop_left, ← hwlen, List.take_left]
        exact hw
      · rw [hs, List.append_assoc]
        exact prevNonWord_append u (w ++ v) hu
      · have hidx : u.length + p.length = (u ++ w).length := by
          simp [hwlen]
        rw [hs, hidx]
        exact nextNonWord_append (u ++ w) v hv

/-- Claim C7: `contains_exclusions_section` depends only on the title and the
first 2000 characters of the body, and it is true exactly when one of the
exclusion phrases occurs as a whole-word, case-insensitive match in the
title or in those first 2000 characters of the body. -/
theorem C7_exclusions_characterisation :
    (∀ title b1 b2 : Str, b1.take 2000 = b2.take 2000 →
      contains_exclusions_section title b1 = contains_exclusions_section title b2) ∧
    (∀ title body : Str,
      contains_exclusions_section title body = true ↔
        ((∃ p ∈ exclusionPhrases, WholeWordOccurs p title) ∨
         (∃ p ∈ exclusionPhrases, WholeWordOccurs p (body.take 2000)))) := by
  constructor
  · intro title b1 b2 h
    unfold contains_exclusions_section
    rw [h]
  · intro title body
    unfold contains_exclusions_section
    rw [Bool.or_eq_true, exclusionSearch_iff, exclusionSearch_iff]

/-- Claim C7, witness: the truncation-invariance part applied to a body of
2000 filler characters, once with text appended past the 2000-character
bound and once without; the appended text cannot change the result. -/
theorem C7_exclusions_characterisation_witness :
    contains_exclusions_section (String.data "Scope")
        (List.replicate 2000 'a' ++ String.data " exclusions apply") =
      contains_exclusions_section (String.data "Scope") (List.replicate 2000 'a') :=
  C7_exclusions_characterisation.1 (String.data "Scope")
    (List.replicate 2000 'a' ++ String.data " exclusions apply")
    (List.replicate 2000 'a')
    (by rw [List.take_left' (List.length_replicate 2000 'a'),
          List.take_of_length_le (Nat.le_of_eq (List.length_replicate 2000 'a'))])

/-! ### The deductible and waiting-period regex engines

`DEDUCTIBLE_RE` is
`(?:deductible|excess|you will bear up to|you are liable for)\s*[:\-]?\s*([A-Za-z0-9,\. ]{1,40})`
and `WAITING_RE` is
`waiting period[s]?\s*(?:of\s*)?(\d+\s*(?:months|years))`, both `re.I`.
Greedy quantifiers are embedded as descending ranges of consumption counts
tried in order; `re.search` scans start offsets left to right; the first
success wins, exactly as in the backtracking engine. -/

/-- `[n, n-1, ..., 0]`: the consumption counts a greedy `*` quantifier tries,
longest first. -/
def descRange : Nat → List Nat
  | 0 => [0]
  | n + 1 => (n + 1) :: descRange n

/-- `[n, n-1, ..., 1]`: the counts a greedy `+` quantifier tries. -/
def descRange1 : Nat → List Nat
  | 0 => []
  | n + 1 => (n + 1) :: descRange1 n

/-- Length of the whitespace run at the front of `s`, the most `\s*` can
consume. -/
def wsLen (s : Str) : Nat := (s.takeWhile pyIsSpace).length

/-- The capture class `[A-Za-z0-9,\. ]` of `DEDUCTIBLE_RE`, by code point:
uppercase and lowercase ASCII letters, digits, comma, period, space. -/
def inClassD (c : Char) : Bool :=
  let n := c.toNat
  (65 ≤ n && n ≤ 90) || (97 ≤ n && n ≤ 122) || (48 ≤ n && n ≤ 57) ||
    n = 44 || n = 46 || n = 32

/-- The separator class `[:\-]`. -/
def isSepChar (c : Char) : Bool := c = ':' || c = '-'

/-- Consumption counts the optional `[:\-]?` tries at the front of `r1`:
the separator first (greedy `?`), then nothing. -/
def sepOpts : Str → List Nat
  | c :: _ => if isSepChar c then [1, 0] else [0]
  | [] => [0]

/-- The greedy capture `([A-Za-z0-9,\. ]{1,40})` at the front of `r3`:
longest class run, clipped to 40. -/
def capAt (r : Str) : Str := (r.takeWhile inClassD).take 40

/-- The capture attempt of `DEDUCTIBLE_RE` once `a + sp + b` characters of
the tail have been consumed by `\s*[:\-]?\s*`. -/
def branchD (r : Str) (a sp b : Nat) : Option (Nat × Str) :=
  if (capAt (((r.drop a).drop sp).drop b)).isEmpty then none
  else some (a + sp + b + (capAt (((r.drop a).drop sp).drop b)).length,
    capAt (((r.drop a).drop sp).drop b))

/-- The greedy second `\s*` of `DEDUCTIBLE_RE`: longest whitespace run
first. -/
def innerB (r : Str) (a sp : Nat) : Option (Nat × Str) :=
  (descRange (wsLen ((r.drop a).drop sp))).findSome? (fun b => branchD r a sp b)

/-- The optional `[:\-]?` of `DEDUCTIBLE_RE`: separator first, then
absent. -/
def innerS (r : Str) (a : Nat) : Option (Nat × Str) :=
  (sepOpts (r.drop a)).findSome? (fun sp => innerB r a sp)

/-- Matching `\s*[:\-]?\s*([A-Za-z0-9,\. ]{1,40})` at the front of `r`, in
backtracking order; returns the number of characters consumed and the
capture. -/
def afterKw (r : Str) : Option (Nat × Str) :=
  (descRange (wsLen r)).findSome? (fun a => innerS r a)

/-- Case-insensitive match of the (lowercase) literal `pat` at the front of
`t`. -/
def ciFront (pat t : Str) : Bool :=
  decide ((t.take pat.length).map lch = pat)

/-- The keyword alternation of `DEDUCTIBLE_RE`, in pattern order. -/
def kwsD : List Str :=
  [String.data "deductible", String.data "excess",
   String.data "you will bear up to", String.data "you are liable for"]

/-- One attempt of `DEDUCTIBLE_RE` at the current start offset: the first
keyword alternative that matches here and completes wins; returns the whole
matched substring and the capture. -/
def tryAtD (t : Str) : Option (Str × Str) :=
  kwsD.findSome? (fun kw =>
    if ciFront kw t then
      (afterKw (t.drop kw.length)).map (fun pr => (t.take (kw.length + pr.1), pr.2))
    else none)

/-- `DEDUCTIBLE_RE.search`: try offsets left to right. -/
def searchD : Str → Option (Str × Str)
  | [] => none
  | c :: rest => (tryAtD (c :: rest)).orElse (fun _ => searchD rest)

/-- `find_deductible` from `extractor/regex_extract.py`:
`m.group(1).strip()` of the first match, else `None`. -/
def find_deductible (t : Str) : Option Str :=
  (searchD t).map (fun pr => pyStrip pr.2)

/-- The literal `waiting period` of `WAITING_RE` (lowercase). -/
def wpLit : Str := String.data "waiting period"

/-- The literal `of` (lowercase). -/
def ofLit : Str := String.data "of"

/-- Consumption counts the optional `[s]?` tries: the `s` (case-insensitive)
first, then nothing. -/
def sOptsW : Str → List Nat
  | c :: _ => if lch c = 's' then [1, 0] else [0]
  | [] => [0]

/-- Consumption counts of the optional group `(?:of\s*)?` at the front of
`r2`: when `of` matches here, `2 +` each greedy count of the inner `\s*`,
longest first, then the group absent. -/
def ofOpts (r2 : Str) : List Nat :=
  if ciFront ofLit r2 then
    ((descRange (wsLen (r2.drop 2))).map (fun w2 => 2 + w2)) ++ [0]
  else [0]

/-- The unit alternation `(?:months|years)` at the front of `r5`, in pattern
order; returns the number of characters it consumes. -/
def unitAt (r5 : Str) : Option Nat :=
  if ciFront (String.data "months") r5 then some 6
  else if ciFront (String.data "years") r5 then some 5
  else none

/-- The final unit alternation of `WAITING_RE` after `st + w1 + ol + d + w3`
characters have been consumed; the capture is digits, inner whitespace and
unit, with original casing. -/
def wUnit (r : Str) (st w1 ol d w3 : Nat) : Option (Nat × Str) :=
  (unitAt (((((r.drop st).drop w1).drop ol).drop d).drop w3)).map (fun ul =>
    (st + w1 + ol + d + w3 + ul,
     (((r.drop st).drop w1).drop ol).take d ++
       ((((r.drop st).drop w1).drop ol).drop d).take w3 ++
       (((((r.drop st).drop w1).drop ol).drop d).drop w3).take ul))

/-- The greedy `\s*` between the digits and the unit. -/
def wW3 (r : Str) (st w1 ol d : Nat) : Option (Nat × Str) :=
  (descRange (wsLen ((((r.drop st).drop w1).drop ol).drop d))).findSome?
    (fun w3 => wUnit r st w1 ol d w3)

/-- The greedy `\d+` of the capture: longest digit run first, at least
one. -/
def wD (r : Str) (st w1 ol : Nat) : Option (Nat × Str) :=
  (descRange1 ((((r.drop st).drop w1).drop ol).takeWhile isDigit09).length).findSome?
    (fun d => wW3 r st w1 ol d)

/-- The optional `(?:of\s*)?` group. -/
def wOf (r : Str) (st w1 : Nat) : Option (Nat × Str) :=
  (ofOpts ((r.drop st).drop w1)).findSome? (fun ol => wD r st w1 ol)

/-- The greedy `\s*` after `waiting period[s]?`. -/
def wW1 (r : Str) (st : Nat) : Option (Nat × Str) :=
  (descRange (wsLen (r.drop st))).findSome? (fun w1 => wOf r st w1)

/-- Matching `[s]?\s*(?:of\s*)?(\d+\s*(?:months|years))` at the front of `r`,
in backtracking order; returns the consumed length and the capture. -/
def afterWp (r : Str) : Option (Nat × Str) :=
  (sOptsW r).findSome? (fun st => wW1 r st)

/-- One attempt of `WAITING_RE` at the current start offset. -/
def tryAtW (t : Str) : Option (Str × Str) :=
  if ciFront wpLit t then
    (afterWp (t.drop wpLit.length)).map
      (fun pr => (t.take (wpLit.length + pr.1), pr.2))
  else none

/-- `WAITING_RE.search`: try offsets left to right. -/
def searchW : Str → Option (Str × Str)
  | [] => none
  | c :: rest => (tryAtW (c :: rest)).orElse (fun _ => searchW rest)

/-- `find_waiting` from `extractor/regex_extract.py`. -/
def find_waiting (t : Str) : Option Str :=
  (searchW t).map (fun pr => pyStrip pr.2)

/-- Python truthiness of an optional string field (`None` and `""` are
falsy), as used by `generate_report.py` and `prepare_dataset.py`. -/
def pyTruthyStr : Option Str → Bool
  | none => false
  | some s => !s.isEmpty

/-- The report filter from `generate_report.py` line 29:
`d["deductible"] or d["waiting_period"] or d["is_exclusion"]`. -/
def risky (ded wp : Option Str) (isExcl : Bool) : Bool :=
  pyTruthyStr ded || pyTruthyStr wp || isExcl

/-- The labelling chain from `prepare_dataset.py` lines 35-42, with
precedence exclusion, deductible, waiting period, other. -/
def labelFor (isExcl : Bool) (ded wp : Option Str) : Str :=
  if isExcl then String.data "Exclusion"
  else if pyTruthyStr ded then String.data "Deductible"
  else if pyTruthyStr wp then String.data "WaitingPeriod"
  else String.data "Other"

/-! ### Claim C10: the empty-capture corner of `find_deductible` -/

/-- Claim C10: on "deductible !" the capture backtracks onto the lone space
(the capture class contains the space character), the final strip erases it,
and `find_deductible` returns the empty string rather than null; the report
filter `risky` and the dataset labeller `labelFor` treat this empty string
exactly like a null deductible. -/
theorem C10_empty_capture_falsy :
    find_deductible (String.data "deductible !") = some [] ∧
    pyTruthyStr (some []) = false ∧ pyTruthyStr none = false ∧
    (∀ (wp : Option Str) (ex : Bool), risky (some []) wp ex = risky none wp ex) ∧
    (∀ (ex : Bool) (wp : Option Str), labelFor ex (some []) wp = labelFor ex none wp) := by
  refine ⟨by rfl, rfl, rfl, ?_, ?_⟩
  · intro wp ex
    simp [risky, pyTruthyStr]
  · intro ex wp
    cases ex <;> simp [labelFor, pyTruthyStr]

/-! ### Claim C8: characterising when `find_deductible` returns null -/

/-- Every character of `l` is whitespace. -/
def allWS (l : Str) : Prop := ∀ c ∈ l, pyIsSpace c = true

/-- Every character of `l` is in the capture class of `DEDUCTIBLE_RE`. -/
def allClassD (l : Str) : Prop := ∀ c ∈ l, inClassD c = true

/-- The shapes the optional `[:\-]?` can consume. -/
def sepShape (sp : Str) : Prop := sp = [] ∨ sp = [':'] ∨ sp = ['-']

/-- A match of `\s*[:\-]?\s*([A-Za-z0-9,\. ]{1,40})` somewhere at the front
of `r`: whitespace, an optional separator, whitespace, then a capture of one
to forty class characters. -/
def DecompAfter (r : Str) : Prop :=
  ∃ a sp b c v, r = a ++ sp ++ b ++ c ++ v ∧ allWS a ∧ sepShape sp ∧
    allWS b ∧ allClassD c ∧ 1 ≤ c.length ∧ c.length ≤ 40

/-- A full `DEDUCTIBLE_RE` match anchored at the front of `s`: a
case-insensitive keyword followed by a `DecompAfter` tail. -/
def AtFrontD (s : Str) : Prop :=
  ∃ w rest, s = w ++ rest ∧ w.map lch ∈ kwsD ∧ DecompAfter rest

/-- A `DEDUCTIBLE_RE` match somewhere in `t` (what `re.search` finds): the
code-accurate reading of a deductible occurrence, whitespace allowed around
the optional separator. -/
def CodeOccursD (t : Str) : Prop := ∃ u rem, t = u ++ rem ∧ AtFrontD rem

/-- A deductible occurrence exactly as claim C8 words it: a keyword,
optionally followed by a colon or hyphen, then 1-40 capture-class
characters, with no whitespace allowed between keyword, separator and
capture. -/
def SpecOccursD (t : Str) : Prop :=
  ∃ u w sp c v, t = u ++ w ++ sp ++ c ++ v ∧ w.map lch ∈ kwsD ∧
    sepShape sp ∧ allClassD c ∧ 1 ≤ c.length ∧ c.length ≤ 40

theorem descRange_mem (n x : Nat) : x ∈ descRange n ↔ x ≤ n := by
  induction n with
  | zero => simp [descRange]
  | succ m ih => simp [descRange, ih]; omega

theorem descRange1_mem (n x : Nat) : x ∈ descRange1 n ↔ 1 ≤ x ∧ x ≤ n := by
  induction n with
  | zero => simp [descRange1]; omega
  | succ m ih => simp [descRange1, ih]; omega

theorem wsLen_le_of_allWS (a rest : Str) (ha : allWS a) :
    a.length ≤ wsLen (a ++ rest) := by
  rw [wsLen, List.takeWhile_append_of_pos (fun c hc => ha c hc)]
  simp

theorem allWS_take (r : Str) (i : Nat) (hi : i ≤ wsLen r) : allWS (r.take i) := by
  intro c hc
  have : r.take i = (r.takeWhile pyIsSpace).take i := by
    conv_lhs => rw [← List.takeWhile_append_dropWhile (p := pyIsSpace) (l := r)]
    rw [List.take_append_of_le_length hi]
  rw [this] at hc
  exact List.mem_takeWhile_imp (List.mem_of_mem_take hc)

theorem sepOpts_zero_mem (x : Str) : 0 ∈ sepOpts x := by
  cases x with
  | nil => simp [sepOpts]
  | cons c rest =>
    by_cases h : isSepChar c <;> simp [sepOpts, h]

theorem sepOpts_elim (x : Str) (sp : Nat) (h : sp ∈ sepOpts x) :
    sp = 0 ∨ (sp = 1 ∧ ∃ ch rest, x = ch :: rest ∧ isSepChar ch = true) := by
  cases x with
  | nil => simp [sepOpts] at h; exact Or.inl h
  | cons c rest =>
    by_cases hc : isSepChar c
    · simp [sepOpts, hc] at h
      rcases h with h | h
      · exact Or.inr ⟨h, c, rest, rfl, hc⟩
      · exact Or.inl h
    · simp [sepOpts, hc] at h
      exact Or.inl h

theorem capAt_allClassD (r : Str) : allClassD (capAt r) := by
  intro c hc
  exact List.mem_takeWhile_imp (List.mem_of_mem_take hc)

theorem capAt_length_le (r : Str) : (capAt r).length ≤ 40 := by
  rw [capAt, List.length_take]
  omega

theorem capAt_exists_append (r : Str) : ∃ v, capAt r ++ v = r := by
  refine ⟨(r.takeWhile inClassD).drop 40 ++ r.dropWhile inClassD, ?_⟩
  rw [capAt, ← List.append_assoc, List.take_append_drop,
    List.takeWhile_append_dropWhile]

theorem capAt_ne_nil (ch : Char) (rest : Str) (h : inClassD ch = true) :
    capAt (ch :: rest) ≠ [] := by
  rw [capAt, List.takeWhile_cons_of_pos h]
  simp

theorem capAt_cons_head (r : Str) (ch : Char) (rest : Str)
    (hr : r = ch :: rest) (h : inClassD ch = true) : capAt r ≠ [] := by
  rw [hr]; exact capAt_ne_nil ch rest h

theorem isSepChar_elim (c : Char) (h : isSepChar c = true) : c = ':' ∨ c = '-' := by
  rw [isSepChar, Bool.or_eq_true, decide_eq_true_iff, decide_eq_true_iff] at h
  exact h

theorem innerB_ne_none (r : Str) (a sp : Nat) (b c v : Str)
    (hd : (r.drop a).drop sp = b ++ (c ++ v)) (hwsb : allWS b)
    (hcls : allClassD c) (h1 : 1 ≤ c.length) : innerB r a sp ≠ none := by
  intro h
  rw [innerB, List.findSome?_eq_none_iff] at h
  have hblen : b.length ≤ wsLen ((r.drop a).drop sp) := by
    rw [hd]; exact wsLen_le_of_allWS b _ hwsb
  have h4 := h b.length ((descRange_mem _ _).mpr hblen)
  cases c with
  | nil => simp at h1
  | cons ch c2 =>
    have hdrop3 : ((r.drop a).drop sp).drop b.length = ch :: (c2 ++ v) := by
      rw [hd, List.drop_left]
      simp
    rw [branchD, hdrop3] at h4
    simp only [List.isEmpty_iff] at h4
    rw [if_neg (capAt_ne_nil ch (c2 ++ v) (hcls ch (by simp)))] at h4
    exact absurd h4 (by simp)

theorem afterKw_ne_none_of_decomp (r : Str) (hd : DecompAfter r) :
    afterKw r ≠ none := by
  intro h
  rcases hd with ⟨a, sp, b, c, v, hr, hwsa, hsep, hwsb, hcls, h1, h40⟩
  have hr2 : r = a ++ (sp ++ (b ++ (c ++ v))) := by
    rw [hr]; simp [List.append_assoc]
  rw [afterKw, List.findSome?_eq_none_iff] at h
  have halen : a.length ≤ wsLen r := by
    rw [hr2]; exact wsLen_le_of_allWS a _ hwsa
  have h2 := h a.length ((descRange_mem _ _).mpr halen)
  rw [innerS, List.findSome?_eq_none_iff] at h2
  have hdrop1 : r.drop a.length = sp ++ (b ++ (c ++ v)) := by
    rw [hr2]; exact List.drop_left a _
  have key : ∃ spn ∈ sepOpts (r.drop a.length),
      (r.drop a.length).drop spn = b ++ (c ++ v) := by
    rcases hsep with hsp | hsp | hsp
    · exact ⟨0, sepOpts_zero_mem _, by rw [hdrop1, hsp]; simp⟩
    · refine ⟨1, ?_, ?_⟩
      · rw [hdrop1, hsp]
        simp [sepOpts, isSepChar]
      · rw [hdrop1, hsp]
        simp
    · refine ⟨1, ?_, ?_⟩
      · rw [hdrop1, hsp]
        simp [sepOpts, isSepChar]
      · rw [hdrop1, hsp]
        simp
  rcases key with ⟨spn, hmem, hdrop2⟩
  exact innerB_ne_none r a.length spn b c v hdrop2 hwsb hcls h1 (h2 spn hmem)

theorem afterKw_some_decomp (r : Str) (pr : Nat × Str)
    (h : afterKw r = some pr) : DecompAfter r := by
  rw [afterKw] at h
  obtain ⟨a, hamem, h2⟩ := List.exists_of_findSome?_eq_some h
  rw [innerS] at h2
  obtain ⟨sp, hspmem, h3⟩ := List.exists_of_findSome?_eq_some h2
  rw [innerB] at h3
  obtain ⟨b, hbmem, h4⟩ := List.exists_of_findSome?_eq_some h3
  rw [branchD] at h4
  by_cases hc : (capAt (((r.drop a).drop sp).drop b)).isEmpty
  · rw [if_pos hc] at h4
    exact absurd h4 (by simp)
  · have hcne : capAt (((r.drop a).drop sp).drop b) ≠ [] := by
      simpa [List.isEmpty_iff] using hc
    have ha : a ≤ wsLen r := (descRange_mem _ _).mp hamem
    have hb : b ≤ wsLen ((r.drop a).drop sp) := (descRange_mem _ _).mp hbmem
    obtain ⟨v2, hv2⟩ := capAt_exists_append (((r.drop a).drop sp).drop b)
    have hnest : r = r.take a ++ ((r.drop a).take sp ++
        (((r.drop a).drop sp).take b ++
          (capAt (((r.drop a).drop sp).drop b) ++ v2))) := by
      rw [hv2, List.take_append_drop, List.take_append_drop, List.take_append_drop]
    refine ⟨r.take a, (r.drop a).take sp, ((r.drop a).drop sp).take b,
      capAt (((r.drop a).drop sp).drop b), v2, ?_, ?_, ?_, ?_, ?_, ?_, ?_⟩
    · rw [← List.append_assoc, ← List.append_assoc, ← List.append_assoc] at hnest
      exact hnest
    · exact allWS_take r a ha
    · rcases sepOpts_elim _ _ hspmem with h0 | ⟨h1b, ch, rest, hx, hch⟩
      · rw [h0]
        exact Or.inl rfl
      · rw [h1b, hx]
        rcases isSepChar_elim ch hch with hc2 | hc2 <;> rw [hc2]
        · exact Or.inr (Or.inl rfl)
        · exact Or.inr (Or.inr rfl)
    · exact allWS_take _ b hb
    · exact capAt_allClassD _
    · exact Nat.one_le_iff_ne_zero.mpr (by
        simpa [List.length_eq_zero] using hcne)
    · exact capAt_length_le _

theorem afterKw_eq_none_iff (r : Str) : afterKw r = none ↔ ¬ DecompAfter r := by
  constructor
  · intro h hd
    exact afterKw_ne_none_of_decomp r hd h
  · intro h
    cases hak : afterKw r with
    | none => rfl
    | some pr => exact absurd (afterKw_some_decomp r pr hak) h

theorem orElse_eq_none_iff {α : Type} (x : Option α) (f : Unit → Option α) :
    x.orElse f = none ↔ x = none ∧ f () = none := by
  cases x <;> simp [Option.orElse]

theorem ciFront_decomp (pat t : Str) (h : ciFront pat t = true) :
    (t.take pat.length).map lch = pat ∧ (t.take pat.length).length = pat.length := by
  rw [ciFront, decide_eq_true_iff] at h
  refine ⟨h, ?_⟩
  have h2 := congrArg List.length h
  rwa [List.length_map] at h2

theorem ciFront_of_decomp (pat w rest t : Str) (ht : t = w ++ rest)
    (hw : w.map lch = pat) : ciFront pat t = true := by
  rw [ciFront, decide_eq_true_iff, ← hw, List.length_map, ht, List.take_left]

theorem tryAtD_eq_none_iff (s : Str) : tryAtD s = none ↔ ¬ AtFrontD s := by
  rw [tryAtD, List.findSome?_eq_none_iff]
  constructor
  · rintro h ⟨w, rest, hs, hkw, hdec⟩
    have h2 := h (w.map lch) hkw
    rw [if_pos (ciFront_of_decomp _ w rest s hs rfl), Option.map_eq_none'] at h2
    have hdrop : s.drop (w.map lch).length = rest := by
      rw [List.length_map, hs]
      exact List.drop_left _ _
    rw [hdrop] at h2
    exact afterKw_ne_none_of_decomp rest hdec h2
  · intro h kw hkw
    by_cases hci : ciFront kw s
    · rw [if_pos hci, Option.map_eq_none']
      cases hak : afterKw (s.drop kw.length) with
      | none => rfl
      | some pr =>
        exfalso
        obtain ⟨hw, hwlen⟩ := ciFront_decomp kw s hci
        apply h
        refine ⟨s.take kw.length, s.drop kw.length, (List.take_append_drop _ _).symm,
          by rw [hw]; exact hkw, afterKw_some_decomp _ pr hak⟩
    · rw [if_neg hci]

theorem codeOccursD_cons (ch : Char) (ct : Str) :
    CodeOccursD (ch :: ct) ↔ AtFrontD (ch :: ct) ∨ CodeOccursD ct := by
  constructor
  · rintro ⟨u, rem, ht, haf⟩
    cases u with
    | nil =>
      left
      simp only [List.nil_append] at ht
      rw [ht]
      exact haf
    | cons u1 us =>
      right
      rw [List.cons_append, List.cons_eq_cons] at ht
      exact ⟨us, rem, ht.2, haf⟩
  · rintro (haf | ⟨u, rem, ht, haf⟩)
    · exact ⟨[], ch :: ct, rfl, haf⟩
    · exact ⟨ch :: u, rem, by rw [List.cons_append, ← ht], haf⟩

theorem searchD_eq_none_iff (t : Str) : searchD t = none ↔ ¬ CodeOccursD t := by
  induction t with
  | nil =>
    constructor
    · rintro - ⟨u, rem, ht, w, rest, hrem, hkw, -⟩
      have hu := List.append_eq_nil.mp ht.symm
      rw [hu.2] at hrem
      have hw := (List.append_eq_nil.mp hrem.symm).1
      rw [hw] at hkw
      exact absurd hkw (by decide)
    · intro h
      rfl
  | cons ch ct ih =>
    rw [show searchD (ch :: ct) = (tryAtD (ch :: ct)).orElse (fun _ => searchD ct)
        from rfl,
      orElse_eq_none_iff, codeOccursD_cons, tryAtD_eq_none_iff, ih]
    tauto

theorem find_deductible_eq_none_iff (t : Str) :
    find_deductible t = none ↔ ¬ CodeOccursD t := by
  rw [find_deductible, Option.map_eq_none', searchD_eq_none_iff]

/-- Claim C8, amended: `find_deductible` returns null exactly when the text
contains no keyword occurrence followed by optional whitespace, an optional
colon or hyphen, optional whitespace, and one to forty capture-class
characters (the regex interleaves `\s*` around the optional separator);
otherwise it returns the stripped capture of the leftmost, greedy match, and
in particular `find_deductible("Deductible: Rs 5,000 per claim.")` returns
`"Rs 5,000 per claim."`. -/
theorem C8_deductible_null_iff :
    (∀ t : Str, find_deductible t = none ↔ ¬ CodeOccursD t) ∧
    find_deductible (String.data "Deductible: Rs 5,000 per claim.") =
      some (String.data "Rs 5,000 per claim.") :=
  ⟨find_deductible_eq_none_iff, by rfl⟩

/-- The head of `r` is a capture-class character. -/
def clsHead : Str → Bool
  | c :: _ => inClassD c
  | [] => false

/-- The claim's reading of what may follow a keyword: a capture-class
character immediately, or a separator and then a capture-class character
(no whitespace anywhere). -/
def specAfterKwB (r : Str) : Bool :=
  clsHead r ||
    (match r with
     | c :: rest => isSepChar c && clsHead rest
     | [] => false)

/-- Executable version of `SpecOccursD`. -/
def specOccursDb (t : Str) : Bool :=
  (List.range (t.length + 1)).any (fun i =>
    kwsD.any (fun kw =>
      ciFront kw (t.drop i) && specAfterKwB ((t.drop i).drop kw.length)))

theorem clsHead_cons (c : Char) (x : Str) : clsHead (c :: x) = inClassD c := rfl

theorem specAfterKwB_cons (c : Char) (x : Str) :
    specAfterKwB (c :: x) = (inClassD c || (isSepChar c && clsHead x)) := rfl

theorem specOccursDb_iff (t : Str) : specOccursDb t = true ↔ SpecOccursD t := by
  constructor
  · intro h
    simp only [specOccursDb, List.any_eq_true, List.mem_range] at h
    rcases h with ⟨i, hi, kw, hkw, hand⟩
    rw [Bool.and_eq_true] at hand
    rcases hand with ⟨hci, hb⟩
    obtain ⟨hw, hwlen⟩ := ciFront_decomp kw (t.drop i) hci
    have ht : t = t.take i ++
        ((t.drop i).take kw.length ++ (t.drop i).drop kw.length) := by
      rw [List.take_append_drop, List.take_append_drop]
    cases hr : (t.drop i).drop kw.length with
    | nil =>
      rw [hr] at hb
      exact absurd hb (by decide)
    | cons c rest =>
      rw [hr] at hb ht
      rw [specAfterKwB_cons, Bool.or_eq_true] at hb
      rcases hb with hb | hb
      · refine ⟨t.take i, (t.drop i).take kw.length, [], [c], rest, ?_, ?_,
          Or.inl rfl, ?_, by simp, by simp⟩
        · conv_lhs => rw [ht]
          simp [List.append_assoc]
        · rw [hw]; exact hkw
        · intro x hx
          rw [List.mem_singleton] at hx
          rw [hx]
          exact hb
      · rw [Bool.and_eq_true] at hb
        cases rest with
        | nil => exact absurd hb.2 (by decide)
        | cons c2 rest2 =>
          rw [clsHead_cons] at hb
          refine ⟨t.take i, (t.drop i).take kw.length, [c], [c2], rest2, ?_, ?_,
            ?_, ?_, by simp, by simp⟩
          · conv_lhs => rw [ht]
            simp [List.append_assoc]
          · rw [hw]; exact hkw
          · rcases isSepChar_elim c hb.1 with hc2 | hc2 <;> rw [hc2]
            · exact Or.inr (Or.inl rfl)
            · exact Or.inr (Or.inr rfl)
          · intro x hx
            rw [List.mem_singleton] at hx
            rw [hx]
            exact hb.2
  · rintro ⟨u, w, sp, c, v, ht, hkw, hsep, hcls, h1, h40⟩
    simp only [specOccursDb, List.any_eq_true, List.mem_range]
    have ht2 : t = u ++ (w ++ (sp ++ (c ++ v))) := by
      rw [ht]; simp [List.append_assoc]
    refine ⟨u.length, ?_, w.map lch, hkw, ?_⟩
    · have hl := congrArg List.length ht2
      rw [List.length_append] at hl
      omega
    · have hdropu : t.drop u.length = w ++ (sp ++ (c ++ v)) := by
        rw [ht2]; exact List.drop_left _ _
      rw [Bool.and_eq_true]
      constructor
      · exact ciFront_of_decomp _ w _ _ hdropu rfl
      · have hdropw : (t.drop u.length).drop (w.map lch).length = sp ++ (c ++ v) := by
          rw [hdropu, List.length_map]
          exact List.drop_left _ _
        rw [hdropw]
        cases c with
        | nil => simp at h1
        | cons ch c2 =>
          rcases hsep with hsp | hsp | hsp <;> rw [hsp]
          · rw [List.nil_append, List.cons_append, specAfterKwB_cons]
            rw [hcls ch (by simp)]
            simp
          · rw [List.singleton_append, specAfterKwB_cons, List.cons_append,
              clsHead_cons, hcls ch (by simp)]
            decide
          · rw [List.singleton_append, specAfterKwB_cons, List.cons_append,
              clsHead_cons, hcls ch (by simp)]
            decide

/-- Claim C8, counterexample: in "deductible\t5" the regex skips the tab
with `\s*` and captures "5", so `find_deductible` returns "5"; but no
occurrence in the claim's sense (keyword, optional colon/hyphen, then
capture-class characters, with no whitespace in between) exists in that
text, so the claim's "returns null exactly when no occurrence exists" fails
there. -/
theorem C8_whitespace_gap_cex :
    find_deductible (String.data "deductible\t5") = some (String.data "5") ∧
    ¬ SpecOccursD (String.data "deductible\t5") := by
  refine ⟨by rfl, fun h => ?_⟩
  exact absurd ((specOccursDb_iff _).mpr h) (by decide)

/-! ### Claim C9: idempotence of the two extractors on the matched span -/

theorem takeWhile_sublist_length (p : Char → Bool) (l : Str) :
    (l.takeWhile p).length ≤ l.length := by
  have h := congrArg List.length (List.takeWhile_append_dropWhile (p := p) (l := l))
  rw [List.length_append] at h
  omega

theorem wsLen_le_length (s : Str) : wsLen s ≤ s.length :=
  takeWhile_sublist_length pyIsSpace s

theorem takeWhile_all (p : Char → Bool) (l : Str) (h : ∀ c ∈ l, p c = true) :
    l.takeWhile p = l :=
  List.takeWhile_eq_self_iff.mpr h

theorem wsLen_all (l : Str) (h : allWS l) : wsLen l = l.length := by
  rw [wsLen, takeWhile_all pyIsSpace l h]

theorem wsLen_append_all (x y : Str) (hx : allWS x) :
    wsLen (x ++ y) = x.length + wsLen y := by
  rw [wsLen, List.takeWhile_append_of_pos hx, List.length_append, wsLen]

theorem wsLen_cons_neg (c : Char) (y : Str) (h : pyIsSpace c = false) :
    wsLen (c :: y) = 0 := by
  rw [wsLen, List.takeWhile_cons_of_neg (by simp [h])]
  rfl

theorem isSepChar_not_ws (c : Char) (h : isSepChar c = true) :
    pyIsSpace c = false := by
  rcases isSepChar_elim c h with h2 | h2 <;> subst h2 <;> decide

theorem inClassD_not_sep (c : Char) (h : inClassD c = true) :
    isSepChar c = false := by
  by_contra hx
  rw [Bool.not_eq_false] at hx
  rcases isSepChar_elim c hx with h2 | h2 <;> subst h2 <;> exact absurd h (by decide)

theorem inClassD_ws_space (c : Char) (h1 : inClassD c = true)
    (h2 : pyIsSpace c = true) : c = ' ' := by
  simp only [inClassD, pyIsSpace, Bool.or_eq_true, Bool.and_eq_true,
    decide_eq_true_iff] at h1 h2
  have h3 : c.toNat = 32 := by omega
  calc c = Char.ofNat c.toNat := (Char.ofNat_toNat c).symm
    _ = Char.ofNat 32 := by rw [h3]
    _ = ' ' := by decide

theorem descRange_findSome?_elim {β : Type} (n : Nat) (f : Nat → Option β) (y : β)
    (h : (descRange n).findSome? f = some y) :
    ∃ x, x ≤ n ∧ f x = some y ∧ ∀ x2, x < x2 → x2 ≤ n → f x2 = none := by
  induction n with
  | zero =>
    cases hf : f 0 with
    | none => simp [descRange, List.findSome?_cons, hf] at h
    | some z =>
      simp [descRange, List.findSome?_cons, hf] at h
      exact ⟨0, Nat.le_refl 0, by rw [hf, h], fun x2 h1 h2 => absurd h2 (by omega)⟩
  | succ m ih =>
    cases hf : f (m + 1) with
    | some z =>
      simp [show descRange (m + 1) = (m + 1) :: descRange m from rfl,
        List.findSome?_cons, hf] at h
      exact ⟨m + 1, Nat.le_refl _, by rw [hf, h], fun x2 h1 h2 => absurd h2 (by omega)⟩
    | none =>
      simp only [show descRange (m + 1) = (m + 1) :: descRange m from rfl,
        List.findSome?_cons, hf] at h
      obtain ⟨x, hx, hfx, hhi⟩ := ih h
      refine ⟨x, by omega, hfx, fun x2 h1 h2 => ?_⟩
      by_cases hx2 : x2 = m + 1
      · rw [hx2]; exact hf
      · exact hhi x2 h1 (by omega)

theorem descRange_findSome?_intro {β : Type} (n x : Nat) (f : Nat → Option β) (y : β)
    (hx : x ≤ n) (hfx : f x = some y)
    (hhi : ∀ x2, x < x2 → x2 ≤ n → f x2 = none) :
    (descRange n).findSome? f = some y := by
  induction n with
  | zero =>
    have hx0 : x = 0 := by omega
    subst hx0
    simp [descRange, List.findSome?_cons, hfx]
  | succ m ih =>
    by_cases hxm : x = m + 1
    · subst hxm
      rw [show descRange (m + 1) = (m + 1) :: descRange m from rfl]
      simp [List.findSome?_cons, hfx]
    · have hxle : x ≤ m := by omega
      rw [show descRange (m + 1) = (m + 1) :: descRange m from rfl,
        List.findSome?_cons, hhi (m + 1) (by omega) (Nat.le_refl _)]
      exact ih hxle (fun x2 h1 h2 => hhi x2 h1 (by omega))

theorem branchD_some_elim (r : Str) (a sp b n : Nat) (cap : Str)
    (h : branchD r a sp b = some (n, cap)) :
    cap = capAt (((r.drop a).drop sp).drop b) ∧ cap ≠ [] ∧
      n = a + sp + b + cap.length := by
  rw [branchD] at h
  by_cases hc : (capAt (((r.drop a).drop sp).drop b)).isEmpty
  · rw [if_pos hc] at h
    exact absurd h (by simp)
  · rw [if_neg hc] at h
    have h2 := Option.some.inj h
    have hcap : cap = capAt (((r.drop a).drop sp).drop b) := (congrArg Prod.snd h2).symm
    refine ⟨hcap, ?_, ?_⟩
    · rw [hcap]
      simpa [List.isEmpty_iff] using hc
    · have := (congrArg Prod.fst h2).symm
      rw [hcap]
      simpa using this

theorem branchD_some_intro (r : Str) (a sp b : Nat)
    (h : capAt (((r.drop a).drop sp).drop b) ≠ []) :
    branchD r a sp b =
      some (a + sp + b + (capAt (((r.drop a).drop sp).drop b)).length,
        capAt (((r.drop a).drop sp).drop b)) := by
  rw [branchD, if_neg (by simpa [List.isEmpty_iff] using h)]

theorem afterKw_some_elim (r : Str) (n : Nat) (cap : Str)
    (h : afterKw r = some (n, cap)) :
    ∃ a sp b,
      a ≤ wsLen r ∧
      sp ∈ sepOpts (r.drop a) ∧
      b ≤ wsLen ((r.drop a).drop sp) ∧
      cap = capAt (((r.drop a).drop sp).drop b) ∧ cap ≠ [] ∧
      n = a + sp + b + cap.length ∧
      (∀ b2, b < b2 → b2 ≤ wsLen ((r.drop a).drop sp) → branchD r a sp b2 = none) := by
  rw [afterKw] at h
  obtain ⟨a, hamem, h2⟩ := List.exists_of_findSome?_eq_some h
  rw [innerS] at h2
  obtain ⟨sp, hspmem, h3⟩ := List.exists_of_findSome?_eq_some h2
  rw [innerB] at h3
  obtain ⟨b, hble, hbd, hhigher⟩ := descRange_findSome?_elim _ _ _ h3
  obtain ⟨hcap, hne, hn⟩ := branchD_some_elim r a sp b n cap hbd
  exact ⟨a, sp, b, (descRange_mem _ _).mp hamem, hspmem, hble, hcap, hne, hn, hhigher⟩

/-- If the engine's first-success capture begins with a space, it is exactly
one space: otherwise the greedier whitespace branch one step up would have
succeeded first. -/
theorem cap_space_singleton (r : Str) (a sp b : Nat) (cap cap2 : Str)
    (hcap : cap = capAt (((r.drop a).drop sp).drop b))
    (hc : cap = ' ' :: cap2)
    (hb : b ≤ wsLen ((r.drop a).drop sp))
    (hhi : ∀ b2, b < b2 → b2 ≤ wsLen ((r.drop a).drop sp) → branchD r a sp b2 = none) :
    cap = [' '] := by
  obtain ⟨v, hv⟩ := capAt_exists_append (((r.drop a).drop sp).drop b)
  rw [← hcap, hc] at hv
  have hr3 : ((r.drop a).drop sp).drop b = ' ' :: (cap2 ++ v) := by
    rw [← hv]
    rfl
  have hble2 : b + 1 ≤ wsLen ((r.drop a).drop sp) := by
    have hbl : b ≤ ((r.drop a).drop sp).length := hb.trans (wsLen_le_length _)
    have hsplit : (r.drop a).drop sp =
        ((r.drop a).drop sp).take b ++ (' ' :: (cap2 ++ v)) := by
      rw [← hr3, List.take_append_drop]
    have hws : allWS (((r.drop a).drop sp).take b) := allWS_take _ b hb
    have := wsLen_append_all _ (' ' :: (cap2 ++ v)) hws
    rw [← hsplit] at this
    rw [this, List.length_take]
    have hsp : wsLen (' ' :: (cap2 ++ v)) = 1 + wsLen (cap2 ++ v) := by
      have : allWS [' '] := by intro c hc2; rw [List.mem_singleton] at hc2; subst hc2; decide
      simpa using wsLen_append_all [' '] (cap2 ++ v) this
    omega
  have hfail := hhi (b + 1) (Nat.lt_succ_self b) hble2
  rw [branchD] at hfail
  have hdrop : ((r.drop a).drop sp).drop (b + 1) = cap2 ++ v := by
    rw [← List.drop_drop, hr3]
    rfl
  rw [hdrop] at hfail
  cases cap2 with
  | nil => rw [hc]
  | cons c2 cc =>
    exfalso
    have hcl : inClassD c2 = true := by
      have hall : allClassD cap := by rw [hcap]; exact capAt_allClassD _
      exact hall c2 (by rw [hc]; simp)
    have := capAt_ne_nil c2 (cc ++ v) hcl
    rw [show (c2 :: cc) ++ v = c2 :: (cc ++ v) from rfl] at hfail
    rw [if_neg (by simpa [List.isEmpty_iff] using this)] at hfail
    exact absurd hfail (by simp)

theorem capAt_self (cap : Str) (hcls : allClassD cap) (hle : cap.length ≤ 40) :
    capAt cap = cap := by
  rw [capAt, takeWhile_all inClassD cap hcls, List.take_of_length_le hle]

theorem allWS_append (x y : Str) (hx : allWS x) (hy : allWS y) : allWS (x ++ y) := by
  intro c hc
  rcases List.mem_append.mp hc with h | h
  · exact hx c h
  · exact hy c h

theorem allWS_nil : allWS [] := by
  intro c hc
  simp at hc

theorem allWS_space : allWS [' '] := by
  intro c hc
  rw [List.mem_singleton] at hc
  subst hc
  decide

theorem innerS_of_drop_nil (u : Str) (k : Nat) (h : u.drop k = []) :
    innerS u k = none := by
  have hbr : branchD u k 0 0 = none := by
    rw [branchD, List.drop_zero, List.drop_zero, h]
    rfl
  have hib : innerB u k 0 = none := by
    rw [innerB, List.drop_zero, h]
    rw [show wsLen ([] : Str) = 0 from rfl, show descRange 0 = [0] from rfl]
    simp [List.findSome?_cons, hbr]
  rw [innerS, h, show sepOpts [] = [0] from rfl]
  simp [List.findSome?_cons, hib]

/-- Computing the inner whitespace-then-capture loop when the remaining text
is exactly an all-whitespace buffer followed by the capture: the engine
consumes the buffer and captures the capture. `hone` carries the
first-success fact that a capture starting with a space is a single
space. -/
theorem innerB_on_buffer_cap (u : Str) (k sp bn : Nat) (B cap : Str)
    (hd : (u.drop k).drop sp = B ++ cap)
    (hBws : allWS B) (hBlen : B.length = bn)
    (hcls : allClassD cap) (hne : cap ≠ []) (hle : cap.length ≤ 40)
    (hone : ∀ chc cap2, cap = chc :: cap2 → pyIsSpace chc = true → cap = [' ']) :
    innerB u k sp = some (k + sp + bn + cap.length, cap) := by
  cases hcc : cap with
  | nil => exact absurd hcc hne
  | cons chc cap2 =>
    have hchc : inClassD chc = true := hcls chc (by rw [hcc]; simp)
    have hcapcap : capAt cap = cap := capAt_self cap hcls hle
    by_cases hspace : pyIsSpace chc = true
    · have hcap1 : cap = [' '] := hone chc cap2 hcc hspace
      rw [innerB]
      have hws : wsLen ((u.drop k).drop sp) = bn + 1 := by
        rw [hd, hcap1, wsLen_append_all _ _ hBws, hBlen]
        rfl
      rw [hws]
      apply descRange_findSome?_intro (bn + 1) bn _ _ (by omega)
      · rw [branchD, hd, List.drop_left' hBlen, hcapcap]
        rw [if_neg (by simpa [List.isEmpty_iff] using hne)]
        rw [hcc]
      · intro x2 h1 h2
        have hx2 : x2 = bn + 1 := by omega
        subst hx2
        rw [branchD]
        have hnil : ((u.drop k).drop sp).drop (bn + 1) = [] := by
          rw [hd, hcap1, List.drop_eq_nil_iff]
          simp [hBlen]
        rw [hnil]
        rfl
    · rw [innerB]
      have hws : wsLen ((u.drop k).drop sp) = bn := by
        rw [hd, hcc, wsLen_append_all _ _ hBws,
          wsLen_cons_neg chc cap2 (by simpa using hspace), hBlen]
        omega
      rw [hws]
      apply descRange_findSome?_intro bn bn _ _ (Nat.le_refl _)
      · rw [branchD, hd, List.drop_left' hBlen, hcapcap]
        rw [if_neg (by simpa [List.isEmpty_iff] using hne)]
        rw [hcc]
      · intro x2 h1 h2
        omega

/-- Re-running `\s*[:\-]?\s*(...)` on exactly the consumed span reproduces
the same consumption and capture. -/
theorem afterKw_take_idem (r : Str) (n : Nat) (cap : Str)
    (h : afterKw r = some (n, cap)) : afterKw (r.take n) = some (n, cap) := by
  obtain ⟨a, sp, b, ha, hspmem, hb, hcap, hcapne, hn, hhi⟩ := afterKw_some_elim r n cap h
  have hAws : allWS (r.take a) := allWS_take r a ha
  have hAlen : (r.take a).length = a := by
    rw [List.length_take]
    have h1 := wsLen_le_length r
    omega
  have hcapcls : allClassD cap := by rw [hcap]; exact capAt_allClassD _
  have hcaple : cap.length ≤ 40 := by rw [hcap]; exact capAt_length_le _
  have hone : ∀ chc cap2, cap = chc :: cap2 → pyIsSpace chc = true → cap = [' '] := by
    intro chc cap2 hcc hspace
    have hchc : inClassD chc = true := hcapcls chc (by rw [hcc]; simp)
    have hsp2 : chc = ' ' := inClassD_ws_space chc hchc hspace
    exact cap_space_singleton r a sp b cap cap2 hcap (by rw [hcc, hsp2]) hb hhi
  rcases sepOpts_elim _ _ hspmem with hsp0 | ⟨hsp1, ch, rest1, hr1eq, hch⟩
  · subst hsp0
    rw [List.drop_zero] at hb hcap
    have hBws : allWS ((r.drop a).take b) := allWS_take _ b hb
    have hBlen : ((r.drop a).take b).length = b := by
      rw [List.length_take]
      have := wsLen_le_length (r.drop a)
      omega
    obtain ⟨v, hv0⟩ := capAt_exists_append ((r.drop a).drop b)
    rw [← hcap] at hv0
    have hcaptake : ((r.drop a).drop b).take cap.length = cap := by
      rw [← hv0, List.take_left]
    have hABws : allWS (r.take a ++ (r.drop a).take b) :=
      allWS_append _ _ hAws hBws
    have hABlen : (r.take a ++ (r.drop a).take b).length = a + b := by
      rw [List.length_append, hAlen, hBlen]
    have hu : r.take n = (r.take a ++ (r.drop a).take b) ++ cap := by
      have hn2 : n = a + (b + cap.length) := by omega
      rw [hn2, List.take_add, List.take_add, hcaptake, List.append_assoc]
    have hudrop : (r.take n).drop (a + b) = cap := by
      rw [hu, List.drop_left' hABlen]
    have hd0 : ((r.take n).drop (a + b)).drop 0 = [] ++ cap := by
      rw [List.drop_zero, hudrop]
      rfl
    have hinner := innerB_on_buffer_cap (r.take n) (a + b) 0 0 [] cap hd0
      allWS_nil rfl hcapcls hcapne hcaple hone
    rw [show a + b + 0 + 0 + cap.length = n from by omega] at hinner
    have hsepopts : sepOpts ((r.take n).drop (a + b)) = [0] := by
      rw [hudrop]
      cases hcc : cap with
      | nil => exact absurd hcc hcapne
      | cons chc cap2 =>
        have hchc : inClassD chc = true := hcapcls chc (by rw [hcc]; simp)
        simp [sepOpts, inClassD_not_sep chc hchc]
    have hinnerS : innerS (r.take n) (a + b) = some (n, cap) := by
      rw [innerS, hsepopts]
      simp [List.findSome?_cons, hinner]
    obtain ⟨chc, cap2, hcc⟩ : ∃ chc cap2, cap = chc :: cap2 := by
      cases cap with
      | nil => exact absurd rfl hcapne
      | cons x y => exact ⟨x, y, rfl⟩
    by_cases hspace : pyIsSpace chc = true
    · have hcap1 : cap = [' '] := hone chc cap2 hcc hspace
      have hulen : (r.take n).length = a + b + 1 := by
        rw [hu, List.length_append, hABlen, hcap1]
        rfl
      have hwsu : wsLen (r.take n) = a + b + 1 := by
        have hall : allWS ((r.take a ++ (r.drop a).take b) ++ [' ']) :=
          allWS_append _ _ hABws allWS_space
        rw [hu, hcap1, wsLen_all _ hall, List.length_append, hABlen]
        rfl
      rw [afterKw, hwsu]
      apply descRange_findSome?_intro (a + b + 1) (a + b) _ _ (by omega)
      · exact hinnerS
      · intro x2 h1 h2
        have hx2 : x2 = a + b + 1 := by omega
        subst hx2
        apply innerS_of_drop_nil
        rw [List.drop_eq_nil_iff, hulen]
    · have hwsu : wsLen (r.take n) = a + b := by
        rw [hu, wsLen_append_all _ _ hABws, hABlen, hcc,
          wsLen_cons_neg chc cap2 (by simpa using hspace)]
        omega
      rw [afterKw, hwsu]
      apply descRange_findSome?_intro (a + b) (a + b) _ _ (Nat.le_refl _)
      · exact hinnerS
      · intro x2 h1 h2
        omega
  · subst hsp1
    have hdrop1 : (r.drop a).drop 1 = rest1 := by rw [hr1eq]; rfl
    rw [hdrop1] at hb hcap
    have hBws : allWS (rest1.take b) := allWS_take _ b hb
    have hBlen : (rest1.take b).length = b := by
      rw [List.length_take]
      have := wsLen_le_length rest1
      omega
    obtain ⟨v, hv0⟩ := capAt_exists_append (rest1.drop b)
    rw [← hcap] at hv0
    have hcaptake : (rest1.drop b).take cap.length = cap := by
      rw [← hv0, List.take_left]
    have hu : r.take n = r.take a ++ (ch :: (rest1.take b ++ cap)) := by
      have hn2 : n = a + (1 + (b + cap.length)) := by omega
      rw [hn2, List.take_add, hr1eq,
        show (1 + (b + cap.length)) = (b + cap.length) + 1 from by omega,
        List.take_succ_cons, List.take_add, hcaptake]
    have hchws : pyIsSpace ch = false := isSepChar_not_ws ch hch
    have hwsu : wsLen (r.take n) = a := by
      rw [hu, wsLen_append_all _ _ hAws, hAlen, wsLen_cons_neg ch _ hchws]
      omega
    have hudropa : (r.take n).drop a = ch :: (rest1.take b ++ cap) := by
      rw [hu, List.drop_left' hAlen]
    have hd1 : ((r.take n).drop a).drop 1 = rest1.take b ++ cap := by
      rw [hudropa]
      rfl
    have hinner := innerB_on_buffer_cap (r.take n) a 1 b (rest1.take b) cap hd1
      hBws hBlen hcapcls hcapne hcaple hone
    rw [show a + 1 + b + cap.length = n from by omega] at hinner
    have hinnerS : innerS (r.take n) a = some (n, cap) := by
      rw [innerS, hudropa,
        show sepOpts (ch :: (rest1.take b ++ cap)) = [1, 0] from by
          simp [sepOpts, hch]]
      simp [List.findSome?_cons, hinner]
    rw [afterKw, hwsu]
    apply descRange_findSome?_intro a a _ _ (Nat.le_refl _)
    · exact hinnerS
    · intro x2 h1 h2
      omega

theorem findSome?_eq_some_of_unique {α β : Type} (l : List α) (f : α → Option β)
    (x : α) (y : β) (hx : x ∈ l) (hfx : f x = some y)
    (hz : ∀ z ∈ l, z ≠ x → f z = none) : l.findSome? f = some y := by
  induction l with
  | nil => simp at hx
  | cons a l ih =>
    by_cases hax : a = x
    · subst hax
      simp [List.findSome?_cons, hfx]
    · rw [List.findSome?_cons, hz a (by simp) hax]
      rcases List.mem_cons.mp hx with h | h

      · exact absurd h.symm hax
      · exact ih h (fun z hz2 hne => hz z (List.mem_cons_of_mem _ hz2) hne)

theorem ciFront_take (kw t : Str) (m : Nat) (hci : ciFront kw t = true)
    (hm : kw.length ≤ m) : ciFront kw (t.take m) = true := by
  rw [ciFront, decide_eq_true_iff] at hci ⊢
  rw [List.take_take, Nat.min_eq_left hm]
  exact hci

theorem ciFront_eq_take_map (kw t : Str) (h : ciFront kw t = true) :
    kw = (t.map lch).take kw.length := by
  rw [ciFront, decide_eq_true_iff] at h
  rw [← List.map_take]
  exact h.symm

theorem kwsD_take_eq : ∀ kw1 ∈ kwsD, ∀ kw2 ∈ kwsD,
    kw1 = kw2.take kw1.length → kw1 = kw2 := by decide

theorem kwsD_len_pos : ∀ kw ∈ kwsD, 0 < kw.length := by decide

theorem kwsD_ci_unique (kw1 kw2 : Str) (h1 : kw1 ∈ kwsD) (h2 : kw2 ∈ kwsD)
    (t : Str) (hc1 : ciFront kw1 t = true) (hc2 : ciFront kw2 t = true) :
    kw1 = kw2 := by
  have e1 := ciFront_eq_take_map kw1 t hc1
  have e2 := ciFront_eq_take_map kw2 t hc2
  rcases Nat.le_total kw1.length kw2.length with hle | hle
  · apply kwsD_take_eq kw1 h1 kw2 h2
    have e3 : kw2.take kw1.length = (t.map lch).take kw1.length := by
      conv_lhs => rw [e2]
      rw [List.take_take, Nat.min_eq_left hle]
    rw [e3, ← e1]
  · refine (kwsD_take_eq kw2 h2 kw1 h1 ?_).symm
    have e3 : kw1.take kw2.length = (t.map lch).take kw2.length := by
      conv_lhs => rw [e1]
      rw [List.take_take, Nat.min_eq_left hle]
    rw [e3, ← e2]

theorem tryAtD_some_elim (s g0 cap : Str) (h : tryAtD s = some (g0, cap)) :
    ∃ kw n, kw ∈ kwsD ∧ ciFront kw s = true ∧
      afterKw (s.drop kw.length) = some (n, cap) ∧
      g0 = s.take (kw.length + n) := by
  rw [tryAtD] at h
  obtain ⟨kw, hkw, hf⟩ := List.exists_of_findSome?_eq_some h
  by_cases hci : ciFront kw s
  · rw [if_pos hci] at hf
    cases hak : afterKw (s.drop kw.length) with
    | none => rw [hak] at hf; exact absurd hf (by simp)
    | some pr =>
      rw [hak] at hf
      obtain ⟨n2, cap2⟩ := pr
      simp only [Option.map_some'] at hf
      have hf2 := Option.some.inj hf
      rw [Prod.mk.injEq] at hf2
      obtain ⟨hfst, hsnd⟩ := hf2
      refine ⟨kw, n2, hkw, hci, ?_, ?_⟩
      · rw [hak, hsnd]
      · exact hfst.symm
  · rw [if_neg hci] at hf
    exact absurd hf (by simp)

theorem tryAtD_take_idem (s g0 cap : Str) (h : tryAtD s = some (g0, cap)) :
    tryAtD g0 = some (g0, cap) ∧ g0 ≠ [] := by
  obtain ⟨kw, n, hkw, hci, hak, hg0⟩ := tryAtD_some_elim s g0 cap h
  have hkwpos : 0 < kw.length := kwsD_len_pos kw hkw
  have hslen : kw.length ≤ s.length := by
    obtain ⟨hw, hwlen⟩ := ciFront_decomp kw s hci
    rw [List.length_take] at hwlen
    omega
  have hci2 : ciFront kw g0 = true := by
    rw [hg0]
    exact ciFront_take kw s (kw.length + n) hci (by omega)
  have hg0drop : g0.drop kw.length = (s.drop kw.length).take n := by
    rw [hg0, List.drop_take]
    congr 1
    omega
  have hak2 : afterKw (g0.drop kw.length) = some (n, cap) := by
    rw [hg0drop]
    exact afterKw_take_idem (s.drop kw.length) n cap hak
  have hg0take : g0.take (kw.length + n) = g0 := by
    rw [hg0, List.take_take, Nat.min_self]
  constructor
  · rw [tryAtD]
    apply findSome?_eq_some_of_unique kwsD _ kw (g0, cap) hkw
    · rw [if_pos hci2, hak2, Option.map_some', hg0take]
    · intro z hz hne
      rw [if_neg]
      intro hcz
      exact hne (kwsD_ci_unique z kw hz hkw g0 hcz hci2)
  · intro hg0nil
    rw [hg0nil, ciFront, decide_eq_true_iff] at hci2
    simp at hci2
    rw [hci2] at hkwpos
    exact absurd hkwpos (by simp)

theorem searchD_take_idem (t : Str) :
    ∀ g0 cap, searchD t = some (g0, cap) → searchD g0 = some (g0, cap) := by
  induction t with
  | nil => intro g0 cap h; simp [searchD] at h
  | cons c rest ih =>
    intro g0 cap h
    rw [show searchD (c :: rest) = (tryAtD (c :: rest)).orElse (fun _ => searchD rest)
      from rfl] at h
    cases htry : tryAtD (c :: rest) with
    | some pr =>
      rw [htry] at h
      have hpr : pr = (g0, cap) := by
        simpa [Option.orElse] using h
      rw [hpr] at htry
      obtain ⟨ht2, hne⟩ := tryAtD_take_idem (c :: rest) g0 cap htry
      cases hg : g0 with
      | nil => exact absurd hg hne
      | cons d dr =>
        rw [hg] at ht2
        rw [show searchD (d :: dr) = (tryAtD (d :: dr)).orElse (fun _ => searchD dr)
          from rfl, ht2]
        rfl
    | none =>
      rw [htry] at h
      exact ih g0 cap (by simpa [Option.orElse] using h)

theorem lch_eq_self_of_not_upper (c : Char)
    (h : ¬(65 ≤ c.toNat ∧ c.toNat ≤ 90)) : lch c = c := by
  rw [lch, Char.toLower, if_neg h]

theorem lch_of_ws (c : Char) (h : pyIsSpace c = true) : lch c = c := by
  apply lch_eq_self_of_not_upper
  simp only [pyIsSpace, Bool.or_eq_true, Bool.and_eq_true, decide_eq_true_iff] at h
  omega

theorem lch_of_digit (c : Char) (h : isDigit09 c = true) : lch c = c := by
  apply lch_eq_self_of_not_upper
  simp only [isDigit09, Bool.and_eq_true, decide_eq_true_iff] at h
  omega

theorem not_ws_of_lch (c x : Char) (hx : pyIsSpace x = false) (h : lch c = x) :
    pyIsSpace c = false := by
  by_contra hc
  rw [Bool.not_eq_false] at hc
  rw [lch_of_ws c hc] at h
  subst h
  rw [hc] at hx
  exact absurd hx (by simp)

theorem not_digit_of_lch (c x : Char) (hx : isDigit09 x = false) (h : lch c = x) :
    isDigit09 c = false := by
  by_contra hc
  rw [Bool.not_eq_false] at hc
  rw [lch_of_digit c hc] at h
  subst h
  rw [hc] at hx
  exact absurd hx (by simp)

theorem digit_not_ws (c : Char) (h : isDigit09 c = true) : pyIsSpace c = false := by
  by_contra hc
  rw [Bool.not_eq_false] at hc
  simp only [isDigit09, Bool.and_eq_true, decide_eq_true_iff] at h
  simp only [pyIsSpace, Bool.or_eq_true, Bool.and_eq_true, decide_eq_true_iff] at hc
  omega

theorem ws_not_digit (c : Char) (h : pyIsSpace c = true) : isDigit09 c = false := by
  by_contra hc
  rw [Bool.not_eq_false] at hc
  simp only [pyIsSpace, Bool.or_eq_true, Bool.and_eq_true, decide_eq_true_iff] at h
  simp only [isDigit09, Bool.and_eq_true, decide_eq_true_iff] at hc
  omega

theorem lch_ws_ne (c x : Char) (hws : pyIsSpace c = true)
    (hx : pyIsSpace x = false) : lch c ≠ x := by
  rw [lch_of_ws c hws]
  intro he
  subst he
  rw [hws] at hx
  exact absurd hx (by simp)

/-- Every element of a `take` within the `takeWhile` run satisfies the
predicate. -/
theorem take_all_of_le_takeWhile (p : Char → Bool) (r : Str) (i : Nat)
    (hi : i ≤ (r.takeWhile p).length) : ∀ c ∈ r.take i, p c = true := by
  intro c hc
  have heq : r.take i = (r.takeWhile p).take i := by
    conv_lhs => rw [← List.takeWhile_append_dropWhile (p := p) (l := r)]
    rw [List.take_append_of_le_length hi]
  rw [heq] at hc
  exact List.mem_takeWhile_imp (List.mem_of_mem_take hc)

theorem sOptsW_elim (r : Str) (st : Nat) (h : st ∈ sOptsW r) :
    st = 0 ∨ (st = 1 ∧ ∃ ch rest, r = ch :: rest ∧ lch ch = 's') := by
  cases r with
  | nil => simp [sOptsW] at h; exact Or.inl h
  | cons c rest =>
    by_cases hc : lch c = 's'
    · simp [sOptsW, hc] at h
      rcases h with h | h
      · exact Or.inr ⟨h, c, rest, rfl, hc⟩
      · exact Or.inl h
    · simp [sOptsW, hc] at h
      exact Or.inl h

theorem ofOpts_elim (r2 : Str) (ol : Nat) (h : ol ∈ ofOpts r2) :
    ol = 0 ∨ (ciFront ofLit r2 = true ∧
      ∃ w2, ol = 2 + w2 ∧ w2 ≤ wsLen (r2.drop 2)) := by
  rw [ofOpts] at h
  by_cases hci : ciFront ofLit r2
  · rw [if_pos hci] at h
    rcases List.mem_append.mp h with h | h
    · obtain ⟨w2, hw2mem, hw2⟩ := List.mem_map.mp h
      exact Or.inr ⟨hci, w2, hw2.symm, (descRange_mem _ _).mp hw2mem⟩
    · rw [List.mem_singleton] at h
      exact Or.inl h
  · rw [if_neg hci] at h
    rw [List.mem_singleton] at h
    exact Or.inl h

theorem unitAt_elim (r5 : Str) (ul : Nat) (h : unitAt r5 = some ul) :
    (ul = 6 ∧ ciFront (String.data "months") r5 = true) ∨
    (ul = 5 ∧ ciFront (String.data "years") r5 = true) := by
  rw [unitAt] at h
  by_cases h1 : ciFront (String.data "months") r5
  · rw [if_pos h1] at h
    exact Or.inl ⟨(Option.some.inj h).symm, h1⟩
  · rw [if_neg h1] at h
    by_cases h2 : ciFront (String.data "years") r5
    · rw [if_pos h2] at h
      exact Or.inr ⟨(Option.some.inj h).symm, h2⟩
    · rw [if_neg h2] at h
      exact absurd h (by simp)

theorem descRange_head (n : Nat) : ∃ tl, descRange n = n :: tl := by
  cases n with
  | zero => exact ⟨[], rfl⟩
  | succ m => exact ⟨descRange m, rfl⟩

theorem descRange1_head (d : Nat) (hd : 1 ≤ d) :
    ∃ tl, descRange1 d = d :: tl := by
  cases d with
  | zero => omega
  | succ m => exact ⟨descRange1 m, rfl⟩

theorem ciFront_cons_head (pat : Str) (p0 : Char) (pr t : Str)
    (hpat : pat = p0 :: pr) (h : ciFront pat t = true) :
    ∃ c rest, t = c :: rest ∧ lch c = p0 := by
  rw [ciFront, decide_eq_true_iff, hpat] at h
  cases t with
  | nil => simp at h
  | cons c rest =>
    refine ⟨c, rest, rfl, ?_⟩
    rw [show (p0 :: pr).length = pr.length + 1 from by simp,
      List.take_succ_cons, List.map_cons, List.cons_eq_cons] at h
    exact h.1

theorem afterWp_some_elim (r : Str) (n : Nat) (cap : Str)
    (h : afterWp r = some (n, cap)) :
    ∃ st w1 ol d w3 ul,
      st ∈ sOptsW r ∧
      w1 ≤ wsLen (r.drop st) ∧
      ol ∈ ofOpts ((r.drop st).drop w1) ∧
      1 ≤ d ∧ d ≤ ((((r.drop st).drop w1).drop ol).takeWhile isDigit09).length ∧
      w3 ≤ wsLen ((((r.drop st).drop w1).drop ol).drop d) ∧
      unitAt (((((r.drop st).drop w1).drop ol).drop d).drop w3) = some ul ∧
      n = st + w1 + ol + d + w3 + ul ∧
      cap = (((r.drop st).drop w1).drop ol).take d ++
            (((((r.drop st).drop w1).drop ol).drop d).take w3 ++
              ((((((r.drop st).drop w1).drop ol).drop d).drop w3).take ul)) := by
  rw [afterWp] at h
  obtain ⟨st, hstm, h1⟩ := List.exists_of_findSome?_eq_some h
  rw [wW1] at h1
  obtain ⟨w1, hw1m, h2⟩ := List.exists_of_findSome?_eq_some h1
  rw [wOf] at h2
  obtain ⟨ol, holm, h3⟩ := List.exists_of_findSome?_eq_some h2
  rw [wD] at h3
  obtain ⟨d, hdm, h4⟩ := List.exists_of_findSome?_eq_some h3
  rw [wW3] at h4
  obtain ⟨w3, hw3m, h5⟩ := List.exists_of_findSome?_eq_some h4
  rw [wUnit] at h5
  cases hu : unitAt (((((r.drop st).drop w1).drop ol).drop d).drop w3) with
  | none => rw [hu] at h5; exact absurd h5 (by simp)
  | some ul =>
    rw [hu] at h5
    simp only [Option.map_some'] at h5
    have h6 := Option.some.inj h5
    rw [Prod.mk.injEq] at h6
    obtain ⟨hfst, hsnd⟩ := h6
    obtain ⟨hd1, hd2⟩ := (descRange1_mem _ _).mp hdm
    refine ⟨st, w1, ol, d, w3, ul, hstm, (descRange_mem _ _).mp hw1m, holm,
      hd1, hd2, (descRange_mem _ _).mp hw3m, hu, hfst.symm, ?_⟩
    rw [← hsnd, List.append_assoc]

/-- Running `WAITING_RE`'s tail matcher on a text that is exactly an
optional `s`, a whitespace run, an `of`-group, digits, inner whitespace and
a unit: each greedy level's first choice succeeds and reproduces the given
segmentation. -/
theorem afterWp_on_components (u : Str) (st w1 ol d w3 ul : Nat)
    (WS1 OF DG WS3 UN : Str)
    (hd_st : u.drop st = WS1 ++ (OF ++ (DG ++ (WS3 ++ UN))))
    (hsopts : ∃ tl, sOptsW u = st :: tl)
    (hWS1ws : allWS WS1) (hWS1len : WS1.length = w1)
    (hofopts : ∃ tl, ofOpts (OF ++ (DG ++ (WS3 ++ UN))) = ol :: tl)
    (hOFlen : OF.length = ol)
    (hOFXhead : ∀ c rest2, OF ++ (DG ++ (WS3 ++ UN)) = c :: rest2 →
      pyIsSpace c = false)
    (hDGdig : ∀ c ∈ DG, isDigit09 c = true) (hDGlen : DG.length = d)
    (hd1 : 1 ≤ d)
    (hWS3ws : allWS WS3) (hWS3len : WS3.length = w3)
    (hUNunit : unitAt UN = some ul) (hUNlen : UN.length = ul)
    (hUNhead : ∀ c rest2, UN = c :: rest2 →
      pyIsSpace c = false ∧ isDigit09 c = false)
    (hUNne : UN ≠ []) :
    afterWp u = some (st + w1 + ol + d + w3 + ul, DG ++ (WS3 ++ UN)) := by
  obtain ⟨un1, unr, hUNeq⟩ : ∃ c rest2, UN = c :: rest2 := by
    cases UN with
    | nil => exact absurd rfl hUNne
    | cons x y => exact ⟨x, y, rfl⟩
  have hd_w1 : (u.drop st).drop w1 = OF ++ (DG ++ (WS3 ++ UN)) := by
    rw [hd_st, List.drop_left' hWS1len]
  have hd_ol : ((u.drop st).drop w1).drop ol = DG ++ (WS3 ++ UN) := by
    rw [hd_w1, List.drop_left' hOFlen]
  have hd_d : (((u.drop st).drop w1).drop ol).drop d = WS3 ++ UN := by
    rw [hd_ol, List.drop_left' hDGlen]
  have hd_w3 : ((((u.drop st).drop w1).drop ol).drop d).drop w3 = UN := by
    rw [hd_d, List.drop_left' hWS3len]
  have hUnit : wUnit u st w1 ol d w3 =
      some (st + w1 + ol + d + w3 + ul, DG ++ (WS3 ++ UN)) := by
    rw [wUnit, hd_w3, hUNunit, Option.map_some']
    have ht1 : (((u.drop st).drop w1).drop ol).take d = DG := by
      rw [hd_ol, List.take_left' hDGlen]
    have ht2 : ((((u.drop st).drop w1).drop ol).drop d).take w3 = WS3 := by
      rw [hd_d, List.take_left' hWS3len]
    have ht3 : UN.take ul = UN := List.take_of_length_le (Nat.le_of_eq hUNlen)
    rw [ht1, ht2, ht3, List.append_assoc]
  have hW3 : wW3 u st w1 ol d =
      some (st + w1 + ol + d + w3 + ul, DG ++ (WS3 ++ UN)) := by
    rw [wW3]
    have hws4 : wsLen ((((u.drop st).drop w1).drop ol).drop d) = w3 := by
      rw [hd_d, wsLen_append_all _ _ hWS3ws, hWS3len, hUNeq,
        wsLen_cons_neg un1 unr (hUNhead un1 unr hUNeq).1]
      omega
    rw [hws4]
    obtain ⟨tl, htl⟩ := descRange_head w3
    rw [htl]
    simp [List.findSome?_cons, hUnit]
  have hD : wD u st w1 ol =
      some (st + w1 + ol + d + w3 + ul, DG ++ (WS3 ++ UN)) := by
    rw [wD]
    have hX : (WS3 ++ UN).takeWhile isDigit09 = [] := by
      cases hW : WS3 with
      | nil =>
        rw [List.nil_append, hUNeq,
          List.takeWhile_cons_of_neg (by
            simp [(hUNhead un1 unr hUNeq).2])]
      | cons w ws2 =>
        have hwws : pyIsSpace w = true := hWS3ws w (by rw [hW]; simp)
        rw [List.cons_append,
          List.takeWhile_cons_of_neg (by simp [ws_not_digit w hwws])]
    have hdig : ((((u.drop st).drop w1).drop ol).takeWhile isDigit09).length = d := by
      rw [hd_ol, List.takeWhile_append_of_pos hDGdig, List.length_append, hX]
      simp [hDGlen]
    rw [hdig]
    obtain ⟨tl, htl⟩ := descRange1_head d hd1
    rw [htl]
    simp [List.findSome?_cons, hW3]
  have hOf : wOf u st w1 =
      some (st + w1 + ol + d + w3 + ul, DG ++ (WS3 ++ UN)) := by
    rw [wOf, hd_w1]
    obtain ⟨tl, htl⟩ := hofopts
    rw [htl]
    simp [List.findSome?_cons, hD]
  have hW1c : wW1 u st =
      some (st + w1 + ol + d + w3 + ul, DG ++ (WS3 ++ UN)) := by
    rw [wW1]
    have hws1 : wsLen (u.drop st) = w1 := by
      rw [hd_st, wsLen_append_all _ _ hWS1ws, hWS1len]
      obtain ⟨c0, rest0, hc0⟩ : ∃ c0 rest0,
          OF ++ (DG ++ (WS3 ++ UN)) = c0 :: rest0 := by
        cases hOFX : OF ++ (DG ++ (WS3 ++ UN)) with
        | nil =>
          exfalso
          have h1 := List.append_eq_nil.mp hOFX
          have h2 := List.append_eq_nil.mp h1.2
          have := congrArg List.length h2.1
          simp [hDGlen] at this
          omega
        | cons x y => exact ⟨x, y, rfl⟩
      rw [hc0, wsLen_cons_neg c0 rest0 (hOFXhead c0 rest0 hc0)]
      omega
    rw [hws1]
    obtain ⟨tl, htl⟩ := descRange_head w1
    rw [htl]
    simp [List.findSome?_cons, hOf]
  obtain ⟨tl0, htl0⟩ := hsopts
  rw [afterWp, htl0]
  simp [List.findSome?_cons, hW1c]

/-- A case-insensitive literal at the front needs at least its own length. -/
theorem ciFront_length_le (kw t : Str) (h : ciFront kw t = true) :
    kw.length ≤ t.length := by
  have h1 := congrArg List.length (ciFront_eq_take_map kw t h)
  rw [List.length_take, List.length_map] at h1
  omega

/-- `WAITING_RE`'s tail matcher is reproduced on the truncation of its input
to the matched length: a match of `n` characters with capture `cap` on `r`
yields the same result on `r.take n`. -/
theorem afterWp_take_idem (r : Str) (n : Nat) (cap : Str)
    (h : afterWp r = some (n, cap)) : afterWp (r.take n) = some (n, cap) := by
  obtain ⟨st, w1, ol, d, w3, ul, hstm, hw1, holm, hd1, hd2, hw3, huni, hn, hcap⟩ :=
    afterWp_some_elim r n cap h
  have hst := sOptsW_elim r st hstm
  have hof := ofOpts_elim ((r.drop st).drop w1) ol holm
  have hun := unitAt_elim (((((r.drop st).drop w1).drop ol).drop d).drop w3) ul huni
  have hstle : st ≤ r.length := by
    rcases hst with h0 | ⟨h1, ch, rest, hre, _⟩
    · omega
    · rw [h1, hre]; simp
  have hSTlen : (r.take st).length = st := by rw [List.length_take]; omega
  have hw1le : w1 ≤ (r.drop st).length :=
    le_trans hw1 (wsLen_le_length _)
  have hWS1len : ((r.drop st).take w1).length = w1 := by
    rw [List.length_take]; omega
  have hWS1ws : allWS ((r.drop st).take w1) := allWS_take _ w1 hw1
  have holle : ol ≤ ((r.drop st).drop w1).length := by
    rcases hof with h0 | ⟨hci, w2, holw, hw2le⟩
    · omega
    · have h2le := ciFront_length_le ofLit _ hci
      rw [show ofLit.length = 2 from rfl] at h2le
      have hw2le2 : w2 ≤ (((r.drop st).drop w1).drop 2).length :=
        le_trans hw2le (wsLen_le_length _)
      rw [List.length_drop] at hw2le2
      omega
  have hOFlen : (((r.drop st).drop w1).take ol).length = ol := by
    rw [List.length_take]; omega
  have hdle : d ≤ (((r.drop st).drop w1).drop ol).length :=
    le_trans hd2 (takeWhile_sublist_length _ _)
  have hDGlen : ((((r.drop st).drop w1).drop ol).take d).length = d := by
    rw [List.length_take]; omega
  have hDGdig : ∀ c ∈ (((r.drop st).drop w1).drop ol).take d, isDigit09 c = true :=
    take_all_of_le_takeWhile _ _ d hd2
  obtain ⟨dg1, dgt, hDGeq⟩ : ∃ c t2,
      (((r.drop st).drop w1).drop ol).take d = c :: t2 := by
    cases hDG : (((r.drop st).drop w1).drop ol).take d with
    | nil =>
      exfalso
      have := congrArg List.length hDG
      rw [hDGlen] at this
      simp at this
      omega
    | cons x y => exact ⟨x, y, rfl⟩
  have hdg1 : isDigit09 dg1 = true :=
    hDGdig dg1 (by rw [hDGeq]; exact List.mem_cons_self dg1 dgt)
  have hw3le : w3 ≤ ((((r.drop st).drop w1).drop ol).drop d).length :=
    le_trans hw3 (wsLen_le_length _)
  have hWS3len : (((((r.drop st).drop w1).drop ol).drop d).take w3).length = w3 := by
    rw [List.length_take]; omega
  have hWS3ws : allWS (((((r.drop st).drop w1).drop ol).drop d).take w3) :=
    allWS_take _ w3 hw3
  have hUNall :
      ((((((r.drop st).drop w1).drop ol).drop d).drop w3).take ul).length = ul ∧
      unitAt ((((((r.drop st).drop w1).drop ol).drop d).drop w3).take ul) = some ul ∧
      (∀ c rest2,
        (((((r.drop st).drop w1).drop ol).drop d).drop w3).take ul = c :: rest2 →
        pyIsSpace c = false ∧ isDigit09 c = false) ∧
      (((((r.drop st).drop w1).drop ol).drop d).drop w3).take ul ≠ [] := by
    rcases hun with ⟨hul, hciM⟩ | ⟨hul, hciY⟩
    · subst hul
      have h6le := ciFront_length_le (String.data "months") _ hciM
      rw [show (String.data "months").length = 6 from rfl] at h6le
      have hlen :
          ((((((r.drop st).drop w1).drop ol).drop d).drop w3).take 6).length = 6 := by
        rw [List.length_take]; omega
      obtain ⟨c0, rest0, hr5, hlc0⟩ :=
        ciFront_cons_head (String.data "months") 'm' (String.data "onths") _ rfl hciM
      have hcons :
          (((((r.drop st).drop w1).drop ol).drop d).drop w3).take 6 =
            c0 :: rest0.take 5 := by
        rw [hr5, show (6 : Nat) = 5 + 1 from by norm_num, List.take_succ_cons]
      refine ⟨hlen, ?_, ?_, ?_⟩
      · have hciM2 : ciFront (String.data "months")
            ((((((r.drop st).drop w1).drop ol).drop d).drop w3).take 6) = true := by
          have := ciFront_take (String.data "months") _ 6 hciM (by decide)
          exact this
        rw [unitAt, if_pos hciM2]
      · intro c rest2 hceq
        rw [hcons] at hceq
        have hc0 : c = c0 := (List.cons.injEq c0 (rest0.take 5) c rest2).mp hceq |>.1.symm
        rw [hc0]
        exact ⟨not_ws_of_lch c0 'm' (by decide) hlc0,
          not_digit_of_lch c0 'm' (by decide) hlc0⟩
      · rw [hcons]; simp
    · subst hul
      have h5le := ciFront_length_le (String.data "years") _ hciY
      rw [show (String.data "years").length = 5 from rfl] at h5le
      have hlen :
          ((((((r.drop st).drop w1).drop ol).drop d).drop w3).take 5).length = 5 := by
        rw [List.length_take]; omega
      obtain ⟨c0, rest0, hr5, hlc0⟩ :=
        ciFront_cons_head (String.data "years") 'y' (String.data "ears") _ rfl hciY
      have hcons :
          (((((r.drop st).drop w1).drop ol).drop d).drop w3).take 5 =
            c0 :: rest0.take 4 := by
        rw [hr5, show (5 : Nat) = 4 + 1 from by norm_num, List.take_succ_cons]
      refine ⟨hlen, ?_, ?_, ?_⟩
      · have hciMf : ciFront (String.data "months")
            ((((((r.drop st).drop w1).drop ol).drop d).drop w3).take 5) = false := by
          by_contra hc
          rw [Bool.not_eq_false] at hc
          have h6 := ciFront_length_le (String.data "months") _ hc
          rw [show (String.data "months").length = 6 from rfl, hlen] at h6
          omega
        have hciY2 : ciFront (String.data "years")
            ((((((r.drop st).drop w1).drop ol).drop d).drop w3).take 5) = true := by
          have := ciFront_take (String.data "years") _ 5 hciY (by decide)
          exact this
        have hnotM : ¬ (ciFront (String.data "months")
            ((((((r.drop st).drop w1).drop ol).drop d).drop w3).take 5) = true) := by
          rw [hciMf]; simp
        rw [unitAt, if_neg hnotM, if_pos hciY2]
      · intro c rest2 hceq
        rw [hcons] at hceq
        have hc0 : c = c0 := (List.cons.injEq c0 (rest0.take 4) c rest2).mp hceq |>.1.symm
        rw [hc0]
        exact ⟨not_ws_of_lch c0 'y' (by decide) hlc0,
          not_digit_of_lch c0 'y' (by decide) hlc0⟩
      · rw [hcons]; simp
  have hu : r.take n =
      r.take st ++ ((r.drop st).take w1 ++ (((r.drop st).drop w1).take ol ++
        ((((r.drop st).drop w1).drop ol).take d ++
          (((((r.drop st).drop w1).drop ol).drop d).take w3 ++
            ((((((r.drop st).drop w1).drop ol).drop d).drop w3).take ul))))) := by
    rw [show n = st + (w1 + (ol + (d + (w3 + ul)))) from by omega,
      List.take_add, List.take_add, List.take_add, List.take_add, List.take_add]
  have hd_st : (r.take n).drop st =
      (r.drop st).take w1 ++ (((r.drop st).drop w1).take ol ++
        ((((r.drop st).drop w1).drop ol).take d ++
          (((((r.drop st).drop w1).drop ol).drop d).take w3 ++
            ((((((r.drop st).drop w1).drop ol).drop d).drop w3).take ul)))) := by
    rw [hu, List.drop_left' hSTlen]
  have hOFXhead : ∀ c rest2,
      ((r.drop st).drop w1).take ol ++
        ((((r.drop st).drop w1).drop ol).take d ++
          (((((r.drop st).drop w1).drop ol).drop d).take w3 ++
            ((((((r.drop st).drop w1).drop ol).drop d).drop w3).take ul))) =
        c :: rest2 → pyIsSpace c = false ∧ lch c ≠ 's' := by
    rcases hof with h0 | ⟨hci, w2, holw, hw2le⟩
    · subst h0
      intro c rest2 hceq
      rw [List.take_zero, List.nil_append, hDGeq, List.cons_append] at hceq
      have hc : c = dg1 := ((List.cons.injEq dg1 _ c rest2).mp hceq).1.symm
      rw [hc]
      refine ⟨digit_not_ws dg1 hdg1, ?_⟩
      rw [lch_of_digit dg1 hdg1]
      intro hEq
      rw [hEq] at hdg1
      exact absurd hdg1 (by decide)
    · subst holw
      obtain ⟨c0, rest0, hr2, hlc0⟩ :=
        ciFront_cons_head ofLit 'o' (String.data "f") _ rfl hci
      intro c rest2 hceq
      rw [show (2 : Nat) + w2 = w2 + 2 by omega, hr2] at hceq
      have hstep : (c0 :: rest0).take (w2 + 2) = c0 :: rest0.take (w2 + 1) := rfl
      rw [hstep, List.cons_append] at hceq
      have hc : c = c0 := ((List.cons.injEq c0 _ c rest2).mp hceq).1.symm
      rw [hc]
      exact ⟨not_ws_of_lch c0 'o' (by decide) hlc0,
        by rw [hlc0]; decide⟩
  have hofopts : ∃ tl,
      ofOpts (((r.drop st).drop w1).take ol ++
        ((((r.drop st).drop w1).drop ol).take d ++
          (((((r.drop st).drop w1).drop ol).drop d).take w3 ++
            ((((((r.drop st).drop w1).drop ol).drop d).drop w3).take ul)))) =
        ol :: tl := by
    rcases hof with h0 | ⟨hci, w2, holw, hw2le⟩
    · subst h0
      have hcif : ciFront ofLit
          ((((r.drop st).drop w1).drop 0).take d ++
            (((((r.drop st).drop w1).drop 0).drop d).take w3 ++
              ((((((r.drop st).drop w1).drop 0).drop d).drop w3).take ul))) = false := by
        by_contra hc
        rw [Bool.not_eq_false] at hc
        obtain ⟨c1, r1x, hceq, hlc1⟩ :=
          ciFront_cons_head ofLit 'o' (String.data "f") _ rfl hc
        rw [hDGeq, List.cons_append] at hceq
        have hc1e : c1 = dg1 := ((List.cons.injEq dg1 _ c1 r1x).mp hceq).1.symm
        rw [hc1e, lch_of_digit dg1 hdg1] at hlc1
        rw [hlc1] at hdg1
        exact absurd hdg1 (by decide)
      have hnot : ¬ (ciFront ofLit
          ((((r.drop st).drop w1).drop 0).take d ++
            (((((r.drop st).drop w1).drop 0).drop d).take w3 ++
              ((((((r.drop st).drop w1).drop 0).drop d).drop w3).take ul))) = true) := by
        rw [hcif]; simp
      exact ⟨[], by rw [List.take_zero, List.nil_append, ofOpts, if_neg hnot]⟩
    · have h2le := ciFront_length_le ofLit _ hci
      rw [show ofLit.length = 2 from rfl] at h2le
      have hof2len : ((((r.drop st).drop w1).take 2)).length = 2 := by
        rw [List.length_take]; omega
      have hmap2 : ((((r.drop st).drop w1).take 2)).map lch = ofLit := by
        have h1 := ciFront_eq_take_map ofLit _ hci
        rw [show ofLit.length = 2 from rfl, ← List.map_take] at h1
        exact h1.symm
      have hw2le2 : w2 ≤ ((((r.drop st).drop w1).drop 2)).length :=
        le_trans hw2le (wsLen_le_length _)
      have hOFwslen : (((((r.drop st).drop w1).drop 2)).take w2).length = w2 := by
        rw [List.length_take]; omega
      subst holw
      have hsplit : ((r.drop st).drop w1).take (2 + w2) =
          ((r.drop st).drop w1).take 2 ++ (((r.drop st).drop w1).drop 2).take w2 := by
        rw [List.take_add]
      have hciOF : ciFront ofLit
          (((r.drop st).drop w1).take (2 + w2) ++
            ((((r.drop st).drop w1).drop (2 + w2)).take d ++
              (((((r.drop st).drop w1).drop (2 + w2)).drop d).take w3 ++
                ((((((r.drop st).drop w1).drop (2 + w2)).drop d).drop w3).take ul)))) =
          true := by
        rw [ciFront, decide_eq_true_iff, show ofLit.length = 2 from rfl,
          hsplit, List.append_assoc, List.take_left' hof2len]
        exact hmap2
      have hwsOF : wsLen
          ((((r.drop st).drop w1).take (2 + w2) ++
            ((((r.drop st).drop w1).drop (2 + w2)).take d ++
              (((((r.drop st).drop w1).drop (2 + w2)).drop d).take w3 ++
                ((((((r.drop st).drop w1).drop (2 + w2)).drop d).drop w3).take ul)))).drop 2) =
          w2 := by
        rw [hsplit, List.append_assoc, List.drop_left' hof2len,
          wsLen_append_all _ _ (allWS_take _ w2 hw2le), hOFwslen,
          hDGeq, List.cons_append,
          wsLen_cons_neg dg1 _ (digit_not_ws dg1 hdg1)]
        omega
      obtain ⟨tl2, htl2⟩ := descRange_head w2
      exact ⟨tl2.map (fun x => 2 + x) ++ [0],
        by rw [ofOpts, if_pos hciOF, hwsOF, htl2]; simp⟩
  have hsopts : ∃ tl, sOptsW (r.take n) = st :: tl := by
    rcases hst with h0 | ⟨h1, ch, rest, hre, hlc⟩
    · subst h0
      cases hWS1case : (r.drop 0).take w1 with
      | cons w ws2 =>
        have hwmem : w ∈ (r.drop 0).take w1 := by
          rw [hWS1case]; exact List.mem_cons_self w ws2
        have hlw : lch w ≠ 's' := lch_ws_ne w 's' (hWS1ws w hwmem) (by decide)
        obtain ⟨X, hX⟩ : ∃ X, r.take n = w :: X :=
          ⟨_, by rw [hu, List.take_zero, List.nil_append, hWS1case]; rfl⟩
        exact ⟨[], by rw [hX]; simp [sOptsW, hlw]⟩
      | nil =>
        have hu0 : r.take n =
            ((r.drop 0).drop w1).take ol ++
              ((((r.drop 0).drop w1).drop ol).take d ++
                (((((r.drop 0).drop w1).drop ol).drop d).take w3 ++
                  ((((((r.drop 0).drop w1).drop ol).drop d).drop w3).take ul))) := by
          rw [hu, List.take_zero, List.nil_append, hWS1case, List.nil_append]
        obtain ⟨c0, rest0, hc0⟩ : ∃ c0 rest0, r.take n = c0 :: rest0 := by
          cases hcase : r.take n with
          | nil =>
            exfalso
            rw [hcase] at hu0
            have h1 := List.append_eq_nil.mp hu0.symm
            have h2 := List.append_eq_nil.mp h1.2
            rw [hDGeq] at h2
            exact absurd h2.1 (by simp)
          | cons x y => exact ⟨x, y, rfl⟩
        have hhead := hOFXhead c0 rest0 (by rw [← hu0]; exact hc0)
        exact ⟨[], by rw [hc0]; simp [sOptsW, hhead.2]⟩
    · subst h1
      have hSTeq : r.take 1 = [ch] := by rw [hre]; rfl
      obtain ⟨X, hX⟩ : ∃ X, r.take n = ch :: X :=
        ⟨_, by rw [hu, hSTeq]; rfl⟩
      exact ⟨[0], by rw [hX]; simp [sOptsW, hlc]⟩
  have hmain := afterWp_on_components (r.take n) st w1 ol d w3 ul
    ((r.drop st).take w1) (((r.drop st).drop w1).take ol)
    ((((r.drop st).drop w1).drop ol).take d)
    (((((r.drop st).drop w1).drop ol).drop d).take w3)
    ((((((r.drop st).drop w1).drop ol).drop d).drop w3).take ul)
    hd_st hsopts hWS1ws hWS1len hofopts hOFlen
    (fun c rest2 hceq => (hOFXhead c rest2 hceq).1)
    hDGdig hDGlen hd1 hWS3ws hWS3len hUNall.2.1 hUNall.1 hUNall.2.2.1 hUNall.2.2.2
  rw [hmain, ← hcap, ← hn]

/-- An anchored `WAITING_RE` attempt that succeeds reproduces the same match
and capture on its own matched span. -/
theorem tryAtW_take_idem (s g0 cap : Str) (h : tryAtW s = some (g0, cap)) :
    tryAtW g0 = some (g0, cap) ∧ g0 ≠ [] := by
  rw [tryAtW] at h
  by_cases hci : ciFront wpLit s = true
  case neg => rw [if_neg hci] at h; exact absurd h (by simp)
  rw [if_pos hci] at h
  obtain ⟨pr, hak, hf⟩ := Option.map_eq_some'.mp h
  obtain ⟨m, capm, hpr⟩ : ∃ m capm, pr = (m, capm) := ⟨pr.1, pr.2, rfl⟩
  rw [hpr] at hak hf
  have hf2 : (s.take (wpLit.length + m), capm) = (g0, cap) := hf
  obtain ⟨hg0, hcapm⟩ := Prod.mk.inj hf2
  subst hcapm
  have hg0s : g0 = s.take (wpLit.length + m) := hg0.symm
  have hslen : wpLit.length ≤ s.length := ciFront_length_le wpLit s hci
  have hci2 : ciFront wpLit g0 = true := by
    rw [hg0s]
    exact ciFront_take wpLit s (wpLit.length + m) hci (by omega)
  have hg0drop : g0.drop wpLit.length = (s.drop wpLit.length).take m := by
    rw [hg0s, List.drop_take]
    congr 1
    omega
  have hak2 : afterWp (g0.drop wpLit.length) = some (m, capm) := by
    rw [hg0drop]
    exact afterWp_take_idem (s.drop wpLit.length) m capm hak
  have hg0take : g0.take (wpLit.length + m) = g0 := by
    rw [hg0s, List.take_take, Nat.min_self]
  constructor
  · rw [tryAtW, if_pos hci2, hak2, Option.map_some', hg0take]
  · intro hnil
    rw [hnil] at hci2
    have hle := ciFront_length_le wpLit [] hci2
    rw [show wpLit.length = 14 from rfl] at hle
    simp at hle

/-- `WAITING_RE.search` reproduces itself on the matched substring. -/
theorem searchW_take_idem (t : Str) :
    ∀ g0 cap, searchW t = some (g0, cap) → searchW g0 = some (g0, cap) := by
  induction t with
  | nil => intro g0 cap h; simp [searchW] at h
  | cons c rest ih =>
    intro g0 cap h
    rw [show searchW (c :: rest) = (tryAtW (c :: rest)).orElse (fun _ => searchW rest)
      from rfl] at h
    cases htry : tryAtW (c :: rest) with
    | some pr =>
      rw [htry] at h
      have hpr : pr = (g0, cap) := by
        simpa [Option.orElse] using h
      rw [hpr] at htry
      obtain ⟨ht2, hne⟩ := tryAtW_take_idem (c :: rest) g0 cap htry
      cases hg : g0 with
      | nil => exact absurd hg hne
      | cons d dr =>
        rw [hg] at ht2
        rw [show searchW (d :: dr) = (tryAtW (d :: dr)).orElse (fun _ => searchW dr)
          from rfl, ht2]
        rfl
    | none =>
      rw [htry] at h
      exact ih g0 cap (by simpa [Option.orElse] using h)

/-- C9: `find_deductible` and `find_waiting` are idempotent on the matched
substring: whenever the underlying regex search succeeds on `t` with whole
match `g0` and capture `cap`, running the same search on `g0` yields the
identical match and capture, and hence the extractor returns the identical
(non-null) result on `g0` as on `t`. -/
theorem C9_find_idempotent_on_match (t g0 cap : Str) :
    (searchD t = some (g0, cap) →
      searchD g0 = some (g0, cap) ∧ find_deductible g0 = find_deductible t) ∧
    (searchW t = some (g0, cap) →
      searchW g0 = some (g0, cap) ∧ find_waiting g0 = find_waiting t) := by
  constructor
  · intro h
    have h2 := searchD_take_idem t g0 cap h
    refine ⟨h2, ?_⟩
    rw [find_deductible, find_deductible, h, h2]
  · intro h
    have h2 := searchW_take_idem t g0 cap h
    refine ⟨h2, ?_⟩
    rw [find_waiting, find_waiting, h, h2]

/-- Concrete instantiation of the idempotence theorem: the deductible side on
"x deductible 5" (match "deductible 5") and the waiting side on
"x waiting period 2 months!" (match "waiting period 2 months"). -/
theorem C9_find_idempotent_on_match_witness :
    (searchD (String.data "x deductible 5") =
        some (String.data "deductible 5", String.data "5")) ∧
    (searchD (String.data "deductible 5") =
        some (String.data "deductible 5", String.data "5") ∧
      find_deductible (String.data "deductible 5") =
        find_deductible (String.data "x deductible 5")) ∧
    (searchW (String.data "x waiting period 2 months!") =
        some (String.data "waiting period 2 months", String.data "2 months")) ∧
    (searchW (String.data "waiting period 2 months") =
        some (String.data "waiting period 2 months", String.data "2 months") ∧
      find_waiting (String.data "waiting period 2 months") =
        find_waiting (String.data "x waiting period 2 months!")) :=
  ⟨by decide,
   (C9_find_idempotent_on_match (String.data "x deductible 5")
     (String.data "deductible 5") (String.data "5")).1 (by decide),
   by decide,
   (C9_find_idempotent_on_match (String.data "x waiting period 2 months!")
     (String.data "waiting period 2 months") (String.data "2 months")).2
     (by decide)⟩

end PolicyScraper
